import Mathlib

/-!
Verification development for the routing core of the traffic-route-optimizer
repository (src/src/routes.py, with the geometry helper src/src/utils.py).

The Python code works on a networkx MultiDiGraph.  We embed it shallowly:

* a graph is a node list plus an adjacency list of `(source, target, key, data)`
  entries, where `data` is the fixed attribute record
  `(distance, travel_time, traffic_weight_score)` (the spec's data model:
  every edge carries exactly these three numeric attributes);
* Python floats become exact rationals `ℚ`;
* `float('inf')` (the initial value of the `g_cost` defaultdict) becomes the
  `none` case of `Option ℚ`;
* Python's `heapq` on `(f, node)` tuples pops the lexicographically least
  entry, so the frontier is embedded as a plain list from which the
  lexicographic minimum is removed on each pop;
* `utils.haversine` is transcendental (sin/cos/asin on ℝ), so the great-circle
  distance between two nodes is abstracted into an explicit parameter
  `gc : ℕ → ℕ → ℚ`; every statement that needs geometric facts about it
  (triangle inequality, nonnegativity, vanishing on the diagonal) takes them
  as hypotheses, since they are mathematical properties of the real function;
* the unbounded `while` loops of the search and of the predecessor
  reconstruction walk are embedded with explicit fuel returning `Option`;
  `none` models divergence, and the termination theorem shows the fuel
  actually used by `find_balanced_route` is always sufficient;
* `nx.has_path` raises `NodeNotFound` when either endpoint is missing from the
  graph (networkx only converts `NetworkXNoPath` to `False`), so the
  orchestrator, which calls it unguarded, is embedded in `Except`;
* `nx.shortest_path G o d (weight := metric)` is Dijkstra on the multigraph
  with per-hop weight the minimum of the parallel edges' metric values; it is
  embedded as the first cost-minimal element of an exhaustive enumeration of
  the simple paths from origin to destination, which is extensionally a
  minimum-total-weight path, exactly what Dijkstra returns for nonnegative
  weights.
-/

namespace RouteOpt

/-- Fixed per-edge attribute record: `distance` (meters), `travel_time`
(seconds), `traffic_weight_score` (congestion severity). -/
structure EdgeData where
  distance : ℚ
  travel_time : ℚ
  traffic_weight_score : ℚ
deriving DecidableEq

/-- Edge identifier `(source, target, key)` of a multigraph edge. -/
abbrev EdgeId := ℕ × ℕ × ℕ

/-- Adjacency entry: `(source, target, key, data)`. -/
abbrev Entry := ℕ × ℕ × ℕ × EdgeData

/-- A directed multigraph: node identifiers plus adjacency entries. -/
structure Graph where
  nodeList : List ℕ
  adj : List Entry
deriving DecidableEq

/-- Source node of an adjacency entry. -/
def Entry.src (e : Entry) : ℕ := e.1

/-- Target node of an adjacency entry. -/
def Entry.tgt (e : Entry) : ℕ := e.2.1

/-- Parallel key of an adjacency entry. -/
def Entry.key (e : Entry) : ℕ := e.2.2.1

/-- Attribute record of an adjacency entry. -/
def Entry.data (e : Entry) : EdgeData := e.2.2.2

/-- Edge identifier of an adjacency entry. -/
def Entry.eid (e : Entry) : EdgeId := (e.1, e.2.1, e.2.2.1)

/-- Out-edges of `u`, in adjacency-list order (Python iterates
`G[current_node].items()`, i.e. all out-edges of the current node). -/
def Graph.edgesFrom (G : Graph) (u : ℕ) : List Entry :=
  G.adj.filter (fun e => e.src = u)

/-- Parallel edges from `u` to `v` as `(key, data)` pairs, mirroring
`G[u][v].items()`. -/
def Graph.parallel (G : Graph) (u v : ℕ) : List (ℕ × EdgeData) :=
  (G.adj.filter (fun e => e.src = u ∧ e.tgt = v)).map (fun e => (e.key, e.data))

/-- Attribute lookup `G[u][v][key]`. -/
def Graph.lookupEdge (G : Graph) (i : EdgeId) : Option EdgeData :=
  (G.adj.find? (fun e => e.src = i.1 ∧ e.tgt = i.2.1 ∧ e.key = i.2.2)).map Entry.data

/-- Boolean adjacency: at least one edge from `u` to `v`. -/
def Graph.adjB (G : Graph) (u v : ℕ) : Bool :=
  !(G.parallel u v).isEmpty

/-- Every node identifier mentioned by the graph (nodes plus edge endpoints;
in networkx `add_edge` inserts the endpoints into the node set). -/
def Graph.universe (G : Graph) : List ℕ :=
  (G.nodeList ++ G.adj.map Entry.src ++ G.adj.map Entry.tgt).dedup

/-- The single-metric solver's `weight_metric` argument
(`'travel_time'` or `'distance'`). -/
inductive Metric where
  | travel_time
  | distance
deriving DecidableEq

/-- Value of the chosen metric attribute on an edge. -/
def metricVal (d : EdgeData) : Metric → ℚ
  | .travel_time => d.travel_time
  | .distance => d.distance

/-- Result tuple of both searches:
`(path, total_time, total_distance, total_traffic_score, path_edges)`. -/
abbrev RouteT := List ℕ × ℚ × ℚ × ℚ × Finset EdgeId

/-- The empty-route sentinel `([], 0, 0, 0, set())`. -/
def emptyRoute : RouteT := ([], 0, 0, 0, ∅)

/-! ### The weighted best-first search (`find_balanced_route`) -/

/-- First-match association-list lookup (Python dict read). -/
def alookup {α : Type} (l : List (ℕ × α)) (n : ℕ) : Option α :=
  (l.find? (fun p => p.1 = n)).map (fun p => p.2)

/-- Mutable state of the A* main loop: the `g_cost` map, the `predecessors`
map (`node ↦ (parent, key)`), the `open_set` frontier and the `visited` set.
Maps are association lists updated by consing; `g_cost` absent = `inf`. -/
structure AState where
  gList : List (ℕ × ℚ)
  preds : List (ℕ × ℕ × ℕ)
  openL : List (ℚ × ℕ)
  visited : List ℕ
deriving DecidableEq

/-- Strict lexicographic order on heap entries; Python's `heapq` pops the
least `(f, node)` tuple under exactly this order. -/
def lexLt (a b : ℚ × ℕ) : Bool :=
  a.1 < b.1 || (a.1 = b.1 && a.2 < b.2)

/-- Pop the lexicographically least entry (`heapq.heappop`): returns the
minimum and the remaining list. -/
def popMin (l : List (ℚ × ℕ)) : Option ((ℚ × ℕ) × List (ℚ × ℕ)) :=
  match l with
  | [] => none
  | h :: t =>
    let m := t.foldl (fun a b => if lexLt b a then b else a) h
    some (m, (h :: t).erase m)

/-- The weighted traversal cost of one relaxation candidate, mirroring
lines 49–61 of `routes.py`: `time_cost`, `traffic_cost`, `distance_cost`
combined with the three weights, plus the `1000000` reuse penalty. -/
def combined_cost (tw trw dw : ℚ) (used : Finset EdgeId) (u v k : ℕ)
    (data : EdgeData) : ℚ :=
  let penalty : ℚ := if (u, v, k) ∈ used then 1000000 else 0
  let time_cost := data.travel_time
  let traffic_score := data.traffic_weight_score
  let distance_m := data.distance
  let traffic_cost := traffic_score * distance_m / 1000
  let distance_cost := distance_m / 1000
  tw * time_cost + trw * traffic_cost + dw * distance_cost + penalty

/-- The admissible estimate of `routes.py` lines 24–32, with the great-circle
distance `utils.haversine` abstracted as `gc`:  straight-line distance at the
global maximum speed (120 km/h), straight-line distance cost, and
straight-line traffic cost at the minimal score 1, combined with the same
weights as the traversal cost. -/
def heuristic (gc : ℕ → ℕ → ℚ) (tw trw dw : ℚ) (dest node : ℕ) : ℚ :=
  let dist_m := gc node dest
  let max_speed_kmh : ℚ := 120
  let min_time := dist_m / (max_speed_kmh / 3.6)
  let min_distance_cost := dist_m / 1000
  let min_traffic_cost := dist_m / 1000 * 1
  tw * min_time + dw * min_distance_cost + trw * min_traffic_cost

/-- One relaxation candidate (body of the inner `for key, edge_data` loop):
compute the combined cost, and on a strict improvement of the neighbour's
`g_cost` record the new cost, the predecessor link and the frontier push.
A `g_cost[current]` of infinity makes the tentative cost infinite, which
never strictly improves anything. -/
def relaxStep (G : Graph) (gc : ℕ → ℕ → ℚ) (tw trw dw : ℚ)
    (used : Finset EdgeId) (dest cur : ℕ) (st : AState) (e : Entry) : AState :=
  match alookup st.gList cur with
  | none => st
  | some gcur =>
    let v := e.tgt
    let k := e.key
    let tentative := gcur + combined_cost tw trw dw used cur v k e.data
    let better :=
      match alookup st.gList v with
      | none => true
      | some gv => decide (tentative < gv)
    if better then
      AState.mk ((v, tentative) :: st.gList) ((v, cur, k) :: st.preds)
        ((tentative + heuristic gc tw trw dw dest v, v) :: st.openL) st.visited
    else st

/-- Relax every out-edge of the current node in adjacency order. -/
def relaxAll (G : Graph) (gc : ℕ → ℕ → ℚ) (tw trw dw : ℚ)
    (used : Finset EdgeId) (dest cur : ℕ) (st : AState) : AState :=
  (G.edgesFrom cur).foldl (relaxStep G gc tw trw dw used dest cur) st

/-- The `while open_set:` loop, with explicit fuel (`none` = fuel exhausted,
modelling divergence, which the termination theorem rules out): pop the least
frontier entry; stop on the destination; skip closed nodes; otherwise close
the node and relax its out-edges. -/
def aLoop (G : Graph) (gc : ℕ → ℕ → ℚ) (tw trw dw : ℚ)
    (used : Finset EdgeId) (dest : ℕ) : ℕ → AState → Option AState
  | 0, _ => none
  | fuel + 1, st =>
    match popMin st.openL with
    | none => some st
    | some ((_, cur), rest) =>
      if cur = dest then some (AState.mk st.gList st.preds rest st.visited)
      else if cur ∈ st.visited then
        aLoop G gc tw trw dw used dest fuel
          (AState.mk st.gList st.preds rest st.visited)
      else
        aLoop G gc tw trw dw used dest fuel
          (relaxAll G gc tw trw dw used dest cur
            (AState.mk st.gList st.preds rest (cur :: st.visited)))

/-- Fuel sufficient for the main loop (proved in the termination theorem):
each node is expanded at most once and each expansion pushes at most one
entry per out-edge. -/
def loopFuel (G : Graph) : ℕ :=
  G.universe.length * (G.adj.length + 1) + 2

/-- The predecessor reconstruction walk (`while current != origin and current
in predecessors`), with fuel; accumulates the visited nodes and traversed
edge identifiers (innermost first, so the accumulator is already the reversed
Python list), and returns the node at which the walk stopped. -/
def reconAux (pl : List (ℕ × ℕ × ℕ)) (origin : ℕ) :
    ℕ → ℕ → List ℕ → List EdgeId → Option (List ℕ × List EdgeId × ℕ)
  | 0, _, _, _ => none
  | fuel + 1, cur, p, es =>
    if cur = origin then some (p, es, cur)
    else
      match alookup pl cur with
      | none => some (p, es, cur)
      | some (nxt, k) => reconAux pl origin fuel nxt (cur :: p) ((nxt, cur, k) :: es)

/-- Default attribute record used only in the provably dead branch where a
reconstructed edge is missing from the graph. -/
def defaultData : EdgeData := EdgeData.mk 0 0 0

/-- Total of one attribute over a set of edge identifiers, looking each edge
up in the graph as `routes.py` lines 83–87 do. -/
def sumAttr (G : Graph) (es : Finset EdgeId) (f : EdgeData → ℚ) : ℚ :=
  es.sum (fun i => f ((G.lookupEdge i).getD defaultData))

/-- `find_balanced_route`: the custom A* search of `routes.py` lines 12–93.
Returns `(path, total_time, total_distance, total_traffic_score, path_edges)`
or the empty sentinel.  `gc` abstracts `utils.haversine` on node coordinates.
The two `none` fallthroughs model nontermination of the respective Python
loops (the second can really occur when edge costs are negative; Python then
loops forever, while the model returns the empty sentinel). -/
def find_balanced_route (G : Graph) (gc : ℕ → ℕ → ℚ) (origin dest : ℕ)
    (tw trw dw : ℚ) (used : Finset EdgeId) : RouteT :=
  if ¬(origin ∈ G.nodeList ∧ dest ∈ G.nodeList) then emptyRoute
  else
    let st0 : AState :=
      AState.mk [(origin, 0)] [] [(heuristic gc tw trw dw dest origin, origin)] []
    match aLoop G gc tw trw dw used dest (loopFuel G) st0 with
    | none => emptyRoute
    | some st =>
      match reconAux st.preds origin (st.preds.length + 1) dest [] [] with
      | none => emptyRoute
      | some (p, esL, fin) =>
        let path := if fin = origin then origin :: p else p
        if path.head? ≠ some origin then emptyRoute
        else if ¬(∀ i ∈ esL, (G.lookupEdge i).isSome) then emptyRoute
        else
          let es : Finset EdgeId := esL.toFinset
          (path, sumAttr G es EdgeData.travel_time,
            sumAttr G es EdgeData.distance,
            sumAttr G es EdgeData.traffic_weight_score, es)

/-- Predecessor-link chains: `Reaches pl a b` holds when following the
predecessor map from `a` arrives at `b` in one or more steps.  Used to state
that the predecessor map stays acyclic. -/
inductive Reaches (pl : List (ℕ × ℕ × ℕ)) : ℕ → ℕ → Prop where
  | single {a b : ℕ} {k : ℕ} : alookup pl a = some (b, k) → Reaches pl a b
  | cons {a b c : ℕ} {k : ℕ} : alookup pl a = some (b, k) → Reaches pl b c →
      Reaches pl a c

/-- The predecessor map has no cycles. -/
def Acyclic (pl : List (ℕ × ℕ × ℕ)) : Prop := ∀ a, ¬ Reaches pl a a

/-- The reconstruction walk as a relation: starting at `c` and following
predecessor links, the loop accumulates the node list `w` (most recently
visited first) and the corresponding edge identifiers `ew`, stopping at
`fin`. -/
inductive PWalk (pl : List (ℕ × ℕ × ℕ)) : ℕ → List ℕ → List EdgeId → ℕ → Prop where
  | nil (c : ℕ) : PWalk pl c [] [] c
  | step {c n k : ℕ} {w : List ℕ} {ew : List EdgeId} {fin : ℕ} :
      alookup pl c = some (n, k) → PWalk pl n w ew fin →
      PWalk pl c (w ++ [c]) (ew ++ [(n, c, k)]) fin

/-- Every predecessor link was recorded from an actual graph edge:
`predecessors[v] = (u, k)` only when `(u, v, k)` is an edge of `G`. -/
def PredsOK (G : Graph) (pl : List (ℕ × ℕ × ℕ)) : Prop :=
  ∀ a b k, alookup pl a = some (b, k) → ∃ data, (b, a, k, data) ∈ G.adj

/-- The `g_cost` values recorded for both ends of every predecessor link
exist and are ordered `g[parent] ≤ g[child]`; together with `Acyclic` this is
the loop invariant that makes the reconstruction walk terminate. -/
def GMono (gl : List (ℕ × ℚ)) (pl : List (ℕ × ℕ × ℕ)) : Prop :=
  ∀ a b k, alookup pl a = some (b, k) →
    ∃ ga gb, alookup gl a = some ga ∧ alookup gl b = some gb ∧ gb ≤ ga

/-! ### The exact single-metric solver (`find_shortest_path_by_metric`) -/

/-- Boolean consecutive-pairs check, structurally recursive so that
membership in the simple-path enumeration evaluates inside the kernel. -/
def chainB (R : ℕ → ℕ → Bool) : List ℕ → Bool
  | [] => true
  | [_] => true
  | u :: v :: rest => R u v && chainB R (v :: rest)

/-- A node sequence that is a path from `o` to `d` in `G`: nonempty, starts
at `o`, ends at `d`, and every consecutive pair is joined by at least one
edge. -/
def IsNodeWalk (G : Graph) (o d : ℕ) (p : List ℕ) : Prop :=
  p.head? = some o ∧ p.getLast? = some d ∧ chainB G.adjB p = true

instance (G : Graph) (o d : ℕ) (p : List ℕ) : Decidable (IsNodeWalk G o d p) :=
  inferInstanceAs (Decidable (_ ∧ _ ∧ _))

/-- An explicit edge-level path from `n` to `d`: each entry is an actual
graph edge, consecutive entries chain target-to-source, and an empty walk is
allowed only when `n = d`.  This is the "other path" a Route competes with. -/
def IsEdgeWalk (G : Graph) : ℕ → ℕ → List Entry → Prop
  | n, d, [] => n = d
  | n, d, e :: rest => e ∈ G.adj ∧ e.src = n ∧ IsEdgeWalk G e.tgt d rest

instance instDecIsEdgeWalk (G : Graph) :
    ∀ (n d : ℕ) (w : List Entry), Decidable (IsEdgeWalk G n d w)
  | n, d, [] => inferInstanceAs (Decidable (n = d))
  | n, d, e :: rest =>
    have := instDecIsEdgeWalk G e.tgt d rest
    inferInstanceAs (Decidable (_ ∧ _ ∧ _))

/-- All duplicate-free sequences of at most `fuel` elements drawn (without
repetition) from `pool`.  Structurally recursive, so it evaluates inside the
kernel. -/
def nodupSeqs : ℕ → List ℕ → List (List ℕ)
  | 0, _ => [[]]
  | fuel + 1, pool =>
    [] :: pool.flatMap (fun x =>
      (nodupSeqs fuel (pool.erase x)).map (fun t => x :: t))

/-- All duplicate-free node sequences over the graph's node universe. -/
def candidateSeqs (G : Graph) : List (List ℕ) :=
  nodupSeqs G.universe.length G.universe

/-- All simple paths from `o` to `d`. -/
def walkCandidates (G : Graph) (o d : ℕ) : List (List ℕ) :=
  (candidateSeqs G).filter (fun p => decide (IsNodeWalk G o d p))

/-- Per-hop Dijkstra weight on the multigraph: the minimum metric value among
the parallel edges (networkx's weight function for a multigraph). -/
def hopWeight (G : Graph) (metric : Metric) (u v : ℕ) : ℚ :=
  match (G.parallel u v).map (fun p => metricVal p.2 metric) with
  | [] => 0
  | h :: t => t.foldl min h

/-- Total per-hop weight of a node sequence. -/
def walkCost (G : Graph) (metric : Metric) : List ℕ → ℚ
  | [] => 0
  | [_] => 0
  | u :: v :: rest => hopWeight G metric u v + walkCost G metric (v :: rest)

/-- `nx.shortest_path G o d (weight := metric)`: a path of minimal total
weight from `o` to `d`, or `none` when none exists (`NetworkXNoPath`).
Embedded as the first minimum over the simple-path enumeration; Dijkstra
returns a simple path of exactly this minimal cost for nonnegative weights. -/
def shortestPath (G : Graph) (o d : ℕ) (metric : Metric) : Option (List ℕ) :=
  match walkCandidates G o d with
  | [] => none
  | h :: t =>
    some (t.foldl (fun best q =>
      if walkCost G metric q < walkCost G metric best then q else best) h)

/-- One step of the reconstruction scan of `routes.py` lines 110–114: keep
the running `(min_weight, best)` pair, replacing it exactly on a strict
improvement (`<`), with the initial `None` standing for the infinite initial
minimum (any finite value beats it). -/
def bestStep (metric : Metric) (acc : Option (ℚ × ℕ × EdgeData))
    (p : ℕ × EdgeData) : Option (ℚ × ℕ × EdgeData) :=
  let w := metricVal p.2 metric
  match acc with
  | none => some (w, p)
  | some (mw, bp) => if w < mw then some (w, p) else some (mw, bp)

/-- The per-hop reconstruction of `routes.py` lines 108–114: among the
parallel edges of a hop, the first one attaining the minimal metric value. -/
def bestEdge (G : Graph) (metric : Metric) (u v : ℕ) : Option (ℕ × EdgeData) :=
  ((G.parallel u v).foldl (bestStep metric) none).map (fun q => q.2)

/-- One iteration of the aggregation loop of `routes.py` lines 106–120: if
the hop has a reconstructed edge, insert its identifier into the edge set and
add its attributes to the three running totals; otherwise skip the hop (the
`if best_data` guard). -/
def exactStep (G : Graph) (metric : Metric) (acc : Finset EdgeId × ℚ × ℚ × ℚ)
    (hop : ℕ × ℕ) : Finset EdgeId × ℚ × ℚ × ℚ :=
  match bestEdge G metric hop.1 hop.2 with
  | none => acc
  | some (k, data) =>
    (insert (hop.1, hop.2, k) acc.1, acc.2.1 + data.travel_time,
      acc.2.2.1 + data.distance, acc.2.2.2 + data.traffic_weight_score)

/-- The aggregation loop of `routes.py` lines 106–120 over the consecutive
hops of the returned node sequence. -/
def exactAccum (G : Graph) (metric : Metric) (hops : List (ℕ × ℕ)) :
    Finset EdgeId × ℚ × ℚ × ℚ :=
  hops.foldl (exactStep G metric) (∅, 0, 0, 0)

/-- The reconstructed `(edge identifier, data)` pairs of a hop list: one per
hop whose node pair is adjacent (dropped otherwise, as the `if best_data`
guard does). -/
def hopPicks (G : Graph) (metric : Metric) (hops : List (ℕ × ℕ)) :
    List (EdgeId × EdgeData) :=
  hops.filterMap (fun hop => (bestEdge G metric hop.1 hop.2).map
    (fun kd => ((hop.1, hop.2, kd.1), kd.2)))

/-- `find_shortest_path_by_metric`: guard on the endpoints, exact
single-metric shortest path, then per-hop edge reconstruction and
aggregation (`routes.py` lines 97–129). -/
def find_shortest_path_by_metric (G : Graph) (origin dest : ℕ)
    (metric : Metric) : RouteT :=
  if ¬(origin ∈ G.nodeList ∧ dest ∈ G.nodeList) then emptyRoute
  else
    match shortestPath G origin dest metric with
    | none => emptyRoute
    | some path =>
      let acc := exactAccum G metric (path.zip path.tail)
      (path, acc.2.1, acc.2.2.1, acc.2.2.2, acc.1)

/-! ### The orchestrator (`find_all_route_options`) -/

/-- The networkx exception that `nx.has_path` lets escape when an endpoint is
missing: `NodeNotFound` is not a `NetworkXNoPath`, so the `try/except` inside
`has_path` does not convert it to `False`. -/
inductive NxError where
  | nodeNotFound
deriving DecidableEq

/-- `nx.has_path G o d`: raises `NodeNotFound` when either endpoint is absent
(propagated from `bidirectional_shortest_path`), otherwise decides whether a
path exists. -/
def has_path (G : Graph) (o d : ℕ) : Except NxError Bool :=
  if o ∈ G.nodeList ∧ d ∈ G.nodeList then
    .ok (!(walkCandidates G o d).isEmpty)
  else .error .nodeNotFound

/-- A labelled route of the orchestrator's result list. -/
abbrev LabeledRoute := String × RouteT

/-- `find_all_route_options` (`routes.py` lines 133–162): early exit when no
path exists, then the Balanced, Time-Optimized and Traffic-Avoiding weighted
searches threading the growing `used_edges` set, then the exact
Distance-Optimized solve; each nonempty result is appended with its label.
The function has no `try/except`, so the `NodeNotFound` raised by
`nx.has_path` on a missing endpoint escapes to the caller. -/
def find_all_route_options (G : Graph) (gc : ℕ → ℕ → ℚ) (origin dest : ℕ) :
    Except NxError (List LabeledRoute) :=
  match has_path G origin dest with
  | .error e => .error e
  | .ok false => .ok []
  | .ok true =>
    let used0 : Finset EdgeId := ∅
    let rb := find_balanced_route G gc origin dest 0.5 0.3 0.2 used0
    let routes1 : List LabeledRoute := if rb.1 ≠ [] then [("Balanced", rb)] else []
    let used1 := if rb.1 ≠ [] then used0 ∪ rb.2.2.2.2 else used0
    let rt := find_balanced_route G gc origin dest 0.8 0.1 0.1 used1
    let routes2 := routes1 ++ (if rt.1 ≠ [] then [("Time-Optimized", rt)] else [])
    let used2 := if rt.1 ≠ [] then used1 ∪ rt.2.2.2.2 else used1
    let ra := find_balanced_route G gc origin dest 0.2 0.7 0.1 used2
    let routes3 := routes2 ++ (if ra.1 ≠ [] then [("Traffic-Avoiding", ra)] else [])
    let used3 := if ra.1 ≠ [] then used2 ∪ ra.2.2.2.2 else used2
    let rd := find_shortest_path_by_metric G origin dest .distance
    let routes4 := routes3 ++ (if rd.1 ≠ [] then [("Distance-Optimized", rd)] else [])
    .ok routes4

/-! ### Example graphs used by closed evaluation theorems and witnesses -/

/-- Two nodes, one edge 1 → 2. -/
def exG1 : Graph := Graph.mk [1, 2] [(1, 2, 0, EdgeData.mk 5 5 1)]

/-- The identically-zero great-circle abstraction (a degenerate but valid
pseudometric, used to instantiate witnesses). -/
def gc0 : ℕ → ℕ → ℚ := fun _ _ => 0

/-- Two nodes with two parallel edges 1 → 2 (keys 0 and 1); the key-1 edge is
shorter but slower and more congested. -/
def exG2 : Graph :=
  Graph.mk [1, 2] [(1, 2, 0, EdgeData.mk 100 10 1), (1, 2, 1, EdgeData.mk 50 20 2)]

/-! ### C4 and C7: orchestrator structure -/

/-- The Balanced stage of the orchestrator (weights 0.5/0.3/0.2, empty
accumulator). -/
def balancedStage (G : Graph) (gc : ℕ → ℕ → ℚ) (o d : ℕ) : RouteT :=
  find_balanced_route G gc o d 0.5 0.3 0.2 ∅

/-- The accumulator after the Balanced stage. -/
def used1 (G : Graph) (gc : ℕ → ℕ → ℚ) (o d : ℕ) : Finset EdgeId :=
  if (balancedStage G gc o d).1 ≠ []
    then (∅ : Finset EdgeId) ∪ (balancedStage G gc o d).2.2.2.2 else ∅

/-- The Time-Optimized stage (weights 0.8/0.1/0.1, accumulator `used1`). -/
def timeStage (G : Graph) (gc : ℕ → ℕ → ℚ) (o d : ℕ) : RouteT :=
  find_balanced_route G gc o d 0.8 0.1 0.1 (used1 G gc o d)

/-- The accumulator after the Time-Optimized stage. -/
def used2 (G : Graph) (gc : ℕ → ℕ → ℚ) (o d : ℕ) : Finset EdgeId :=
  if (timeStage G gc o d).1 ≠ []
    then used1 G gc o d ∪ (timeStage G gc o d).2.2.2.2 else used1 G gc o d

/-- The Traffic-Avoiding stage (weights 0.2/0.7/0.1, accumulator `used2`). -/
def trafficStage (G : Graph) (gc : ℕ → ℕ → ℚ) (o d : ℕ) : RouteT :=
  find_balanced_route G gc o d 0.2 0.7 0.1 (used2 G gc o d)

/-- The accumulator after the Traffic-Avoiding stage. -/
def used3 (G : Graph) (gc : ℕ → ℕ → ℚ) (o d : ℕ) : Finset EdgeId :=
  if (trafficStage G gc o d).1 ≠ []
    then used2 G gc o d ∪ (trafficStage G gc o d).2.2.2.2 else used2 G gc o d

/-- The Distance-Optimized stage: the exact solve by raw distance.  Note the
accumulator does not occur in this expression. -/
def distanceStage (G : Graph) (o d : ℕ) : RouteT :=
  find_shortest_path_by_metric G o d .distance

/-- A labelled singleton when the search succeeded, else nothing. -/
def tagged (label : String) (r : RouteT) : List LabeledRoute :=
  if r.1 ≠ [] then [(label, r)] else []

/-! ## Theorems -/

/-! ### List and enumeration lemmas -/

theorem chainB_iff (R : ℕ → ℕ → Bool) :
    ∀ l : List ℕ, chainB R l = true ↔ List.Chain' (fun u v => R u v = true) l
  | [] => by simp [chainB]
  | [_] => by simp [chainB]
  | u :: v :: rest => by
    rw [List.chain'_cons]
    simp only [chainB, Bool.and_eq_true]
    exact and_congr Iff.rfl (chainB_iff R (v :: rest))

theorem nodupSeqs_sound :
    ∀ (fuel : ℕ) (pool : List ℕ), pool.Nodup →
      ∀ p ∈ nodupSeqs fuel pool, p.Nodup ∧ ∀ x ∈ p, x ∈ pool := by
  intro fuel
  induction fuel with
  | zero =>
    intro pool _ p hp
    simp only [nodupSeqs, List.mem_singleton] at hp
    subst hp
    simp
  | succ n ih =>
    intro pool hpool p hp
    simp only [nodupSeqs, List.mem_cons, List.mem_flatMap, List.mem_map] at hp
    rcases hp with rfl | ⟨x, hx, t, ht, rfl⟩
    · simp
    · obtain ⟨hnd, hsub⟩ := ih (pool.erase x) (hpool.erase x) t ht
      refine ⟨List.nodup_cons.2 ⟨fun hxt => ?_, hnd⟩, ?_⟩
      · exact absurd ((hpool.mem_erase_iff).1 (hsub x hxt)).1 (by simp)
      · intro y hy
        rcases List.mem_cons.1 hy with rfl | hyt
        · exact hx
        · exact List.mem_of_mem_erase (hsub y hyt)

theorem nodupSeqs_complete :
    ∀ (fuel : ℕ) (pool : List ℕ) (p : List ℕ), p.Nodup →
      (∀ x ∈ p, x ∈ pool) → p.length ≤ fuel → p ∈ nodupSeqs fuel pool := by
  intro fuel
  induction fuel with
  | zero =>
    intro pool p _ _ hlen
    rw [Nat.le_zero, List.length_eq_zero] at hlen
    subst hlen
    simp [nodupSeqs]
  | succ n ih =>
    intro pool p hnd hsub hlen
    match p with
    | [] => simp [nodupSeqs]
    | x :: t =>
      simp only [nodupSeqs, List.mem_cons, List.mem_flatMap, List.mem_map]
      have hxt : x ∉ t := (List.nodup_cons.1 hnd).1
      refine Or.inr ⟨x, hsub x (List.mem_cons_self x t), t, ?_, rfl⟩
      refine ih (pool.erase x) t (List.nodup_cons.1 hnd).2 (fun y hy => ?_)
        (by simpa using Nat.succ_le_succ_iff.1 (by simpa using hlen))
      have hyx : y ≠ x := fun hyx => hxt (hyx ▸ hy)
      exact (List.mem_erase_of_ne hyx).2 (hsub y (List.mem_cons_of_mem x hy))

theorem foldl_argmin {α : Type} (cost : α → ℚ) :
    ∀ (t : List α) (h : α),
      (t.foldl (fun best q => if cost q < cost best then q else best) h) ∈ h :: t
        ∧ ∀ q ∈ h :: t,
            cost (t.foldl (fun best q => if cost q < cost best then q else best) h)
              ≤ cost q := by
  intro t
  induction t with
  | nil => intro h; simp
  | cons a t ih =>
    intro h
    simp only [List.foldl_cons]
    obtain ⟨hmem, hmin⟩ := ih (if cost a < cost h then a else h)
    have hle : cost (if cost a < cost h then a else h) ≤ cost h ∧
        cost (if cost a < cost h then a else h) ≤ cost a := by
      split <;> constructor <;> first | rfl | linarith
    constructor
    · rcases List.mem_cons.1 hmem with he | hmemt
      · rw [he]
        split
        · exact List.mem_cons_of_mem _ (List.mem_cons_self a t)
        · exact List.mem_cons_self _ _
      · exact List.mem_cons_of_mem _ (List.mem_cons_of_mem a hmemt)
    · intro q hq
      rcases List.mem_cons.1 hq with rfl | hq
      · exact le_trans (hmin _ (List.mem_cons_self _ t)) hle.1
      · rcases List.mem_cons.1 hq with rfl | hq
        · exact le_trans (hmin _ (List.mem_cons_self _ t)) hle.2
        · exact hmin q (List.mem_cons_of_mem _ hq)

theorem foldl_min_mem : ∀ (t : List ℚ) (h : ℚ), t.foldl min h ∈ h :: t := by
  intro t
  induction t with
  | nil => intro h; simp
  | cons a t ih =>
    intro h
    simp only [List.foldl_cons]
    rcases List.mem_cons.1 (ih (min h a)) with he | hmemt
    · rw [he]
      rcases min_choice h a with hc | hc <;> rw [hc]
      · exact List.mem_cons_self _ _
      · exact List.mem_cons_of_mem _ (List.mem_cons_self a t)
    · exact List.mem_cons_of_mem _ (List.mem_cons_of_mem a hmemt)

theorem foldl_min_le : ∀ (t : List ℚ) (h : ℚ), ∀ x ∈ h :: t, t.foldl min h ≤ x := by
  intro t
  induction t with
  | nil =>
    intro h x hx
    simp at hx
    subst hx
    simp
  | cons a t ih =>
    intro h x hx
    simp only [List.foldl_cons]
    have h1 : t.foldl min (min h a) ≤ min h a :=
      ih (min h a) (min h a) (List.mem_cons_self _ t)
    rcases List.mem_cons.1 hx with heq | hx2
    · rw [heq]
      exact le_trans h1 (min_le_left _ _)
    · rcases List.mem_cons.1 hx2 with heq | hx3
      · rw [heq]
        exact le_trans h1 (min_le_right _ _)
      · exact ih (min h a) x (List.mem_cons_of_mem _ hx3)


theorem tagged_length_le (label : String) (r : RouteT) :
    (tagged label r).length ≤ 1 := by
  unfold tagged; split <;> simp

/-- Unfolding of the orchestrator on the path-exists branch into its four
stages. -/
theorem find_all_route_options_stages (G : Graph) (gc : ℕ → ℕ → ℚ) (o d : ℕ)
    (h : has_path G o d = .ok true) :
    find_all_route_options G gc o d = .ok
      (tagged "Balanced" (balancedStage G gc o d) ++
        tagged "Time-Optimized" (timeStage G gc o d) ++
        tagged "Traffic-Avoiding" (trafficStage G gc o d) ++
        tagged "Distance-Optimized" (distanceStage G o d)) := by
  simp only [find_all_route_options, h, tagged, balancedStage, used1,
    timeStage, used2, trafficStage, distanceStage]

theorem filter_four (p1 p2 p3 p4 : LabeledRoute) :
    ([p1, p2, p3, p4].filter (fun x => decide (x.2.1 ≠ []))) =
      tagged p1.1 p1.2 ++ tagged p2.1 p2.2 ++ tagged p3.1 p3.2 ++
        tagged p4.1 p4.2 := by
  by_cases h1 : p1.2.1 = [] <;> by_cases h2 : p2.2.1 = [] <;>
    by_cases h3 : p3.2.1 = [] <;> by_cases h4 : p4.2.1 = [] <;>
    simp [List.filter, tagged, h1, h2, h3, h4]

/-! ### Graph and simple-path enumeration lemmas -/

theorem mem_parallel_iff (G : Graph) (u v k : ℕ) (data : EdgeData) :
    (k, data) ∈ G.parallel u v ↔ (u, v, k, data) ∈ G.adj := by
  simp only [Graph.parallel, List.mem_map, List.mem_filter, decide_eq_true_eq]
  constructor
  · rintro ⟨e, ⟨he, hsrc, htgt⟩, hkd⟩
    have : e = (u, v, k, data) := by
      obtain ⟨e1, e2, e3, e4⟩ := e
      simp only [Entry.src, Entry.tgt, Entry.key, Entry.data] at hsrc htgt hkd
      simp only [Prod.mk.injEq] at hkd ⊢
      exact ⟨hsrc, htgt, hkd.1, hkd.2⟩
    exact this ▸ he
  · intro he
    exact ⟨(u, v, k, data), ⟨he, rfl, rfl⟩, rfl⟩

theorem adjB_iff (G : Graph) (u v : ℕ) :
    G.adjB u v = true ↔ ∃ k data, (u, v, k, data) ∈ G.adj := by
  unfold Graph.adjB
  rw [Bool.not_eq_true', List.isEmpty_eq_false_iff_exists_mem]
  constructor
  · rintro ⟨⟨k, data⟩, hm⟩
    exact ⟨k, data, (mem_parallel_iff G u v k data).1 hm⟩
  · rintro ⟨k, data, hm⟩
    exact ⟨(k, data), (mem_parallel_iff G u v k data).2 hm⟩

theorem mem_universe_of_node (G : Graph) (n : ℕ) (h : n ∈ G.nodeList) :
    n ∈ G.universe := by
  unfold Graph.universe
  rw [List.mem_dedup]
  exact List.mem_append.2 (Or.inl (List.mem_append.2 (Or.inl h)))

theorem mem_universe_of_src (G : Graph) (e : Entry) (h : e ∈ G.adj) :
    e.src ∈ G.universe := by
  unfold Graph.universe
  rw [List.mem_dedup]
  exact List.mem_append.2 (Or.inl (List.mem_append.2 (Or.inr
    (List.mem_map.2 ⟨e, h, rfl⟩))))

theorem mem_universe_of_tgt (G : Graph) (e : Entry) (h : e ∈ G.adj) :
    e.tgt ∈ G.universe := by
  unfold Graph.universe
  rw [List.mem_dedup]
  exact List.mem_append.2 (Or.inr (List.mem_map.2 ⟨e, h, rfl⟩))

theorem universe_nodup (G : Graph) : G.universe.Nodup := List.nodup_dedup _

theorem chain_elem_adj (R : ℕ → ℕ → Bool) :
    ∀ (p : List ℕ), chainB R p = true → ∀ x ∈ p,
      p.head? = some x ∨ ∃ u, R u x = true := by
  intro p
  induction p with
  | nil => simp
  | cons a t ih =>
    intro hc x hx
    rcases List.mem_cons.1 hx with rfl | hxt
    · exact Or.inl rfl
    · refine Or.inr ?_
      cases t with
      | nil => simp at hxt
      | cons b t2 =>
        have hc2 : R a b = true ∧ chainB R (b :: t2) = true := by
          simpa [chainB] using hc
        rcases ih hc2.2 x hxt with hhead | ⟨u, hu⟩
        · simp only [List.head?_cons, Option.some.injEq] at hhead
          exact ⟨a, hhead ▸ hc2.1⟩
        · exact ⟨u, hu⟩

theorem walk_nodes_mem_universe (G : Graph) (o d : ℕ) (p : List ℕ)
    (hw : IsNodeWalk G o d p) (ho : o ∈ G.nodeList) :
    ∀ x ∈ p, x ∈ G.universe := by
  intro x hx
  rcases chain_elem_adj G.adjB p hw.2.2 x hx with hhead | ⟨u, hu⟩
  · have hxo : x = o := by
      have hh := hw.1
      rw [hhead] at hh
      exact Option.some.inj hh
    exact hxo ▸ mem_universe_of_node G o ho
  · obtain ⟨k, data, hm⟩ := (adjB_iff G u x).1 hu
    exact mem_universe_of_tgt G (u, x, k, data) hm

theorem nodup_length_le {p q : List ℕ} (hnd : p.Nodup)
    (hsub : ∀ x ∈ p, x ∈ q) : p.length ≤ q.length := by
  calc p.length = p.toFinset.card := (List.toFinset_card_of_nodup hnd).symm
    _ ≤ q.toFinset.card := Finset.card_le_card
        (fun x hx => List.mem_toFinset.2 (hsub x (List.mem_toFinset.1 hx)))
    _ ≤ q.length := q.toFinset_card_le

theorem mem_walkCandidates (G : Graph) (o d : ℕ) (p : List ℕ) :
    p ∈ walkCandidates G o d ↔ p ∈ candidateSeqs G ∧ IsNodeWalk G o d p := by
  simp [walkCandidates, List.mem_filter]

theorem walkCandidates_sound (G : Graph) (o d : ℕ) (p : List ℕ)
    (h : p ∈ walkCandidates G o d) : IsNodeWalk G o d p ∧ p.Nodup := by
  obtain ⟨hc, hw⟩ := (mem_walkCandidates G o d p).1 h
  exact ⟨hw, (nodupSeqs_sound _ _ (universe_nodup G) p hc).1⟩

theorem walkCandidates_complete (G : Graph) (o d : ℕ) (p : List ℕ)
    (hw : IsNodeWalk G o d p) (hnd : p.Nodup) (ho : o ∈ G.nodeList) :
    p ∈ walkCandidates G o d := by
  refine (mem_walkCandidates G o d p).2 ⟨?_, hw⟩
  exact nodupSeqs_complete _ _ p hnd (walk_nodes_mem_universe G o d p hw ho)
    (nodup_length_le hnd (walk_nodes_mem_universe G o d p hw ho))

theorem shortestPath_spec (G : Graph) (o d : ℕ) (metric : Metric) (p : List ℕ)
    (h : shortestPath G o d metric = some p) :
    p ∈ walkCandidates G o d ∧
      ∀ q ∈ walkCandidates G o d, walkCost G metric p ≤ walkCost G metric q := by
  unfold shortestPath at h
  cases hwc : walkCandidates G o d with
  | nil => rw [hwc] at h; simp at h
  | cons a t =>
    rw [hwc] at h
    simp only [Option.some.injEq] at h
    subst h
    exact foldl_argmin (walkCost G metric) t a

theorem shortestPath_of_candidate (G : Graph) (o d : ℕ) (metric : Metric)
    (q : List ℕ) (hq : q ∈ walkCandidates G o d) :
    ∃ p, shortestPath G o d metric = some p := by
  unfold shortestPath
  cases hwc : walkCandidates G o d with
  | nil => rw [hwc] at hq; simp at hq
  | cons a t => exact ⟨_, rfl⟩

/-! ### Per-hop reconstruction lemmas -/

theorem hopWeight_le (G : Graph) (metric : Metric) (u v k : ℕ) (data : EdgeData)
    (h : (k, data) ∈ G.parallel u v) :
    hopWeight G metric u v ≤ metricVal data metric := by
  unfold hopWeight
  have hv : metricVal data metric ∈
      (G.parallel u v).map (fun p => metricVal p.2 metric) :=
    List.mem_map.2 ⟨(k, data), h, rfl⟩
  cases hvals : (G.parallel u v).map (fun p => metricVal p.2 metric) with
  | nil => rw [hvals] at hv; simp at hv
  | cons a t =>
    rw [hvals] at hv
    exact foldl_min_le t a _ hv

theorem hopWeight_mem (G : Graph) (metric : Metric) (u v : ℕ)
    (h : G.parallel u v ≠ []) :
    ∃ kd ∈ G.parallel u v, hopWeight G metric u v = metricVal kd.2 metric := by
  unfold hopWeight
  cases hvals : (G.parallel u v).map (fun p => metricVal p.2 metric) with
  | nil =>
    rw [List.map_eq_nil_iff] at hvals
    exact absurd hvals h
  | cons a t =>
    have hmem : t.foldl min a ∈ a :: t := foldl_min_mem t a
    rw [← hvals] at hmem
    obtain ⟨kd, hkd, hval⟩ := List.mem_map.1 hmem
    exact ⟨kd, hkd, hval.symm⟩

theorem bfold_some_spec (metric : Metric) :
    ∀ (l : List (ℕ × EdgeData)) (w0 : ℚ) (b0 : ℕ × EdgeData),
      w0 = metricVal b0.2 metric →
      ∃ w bp,
        l.foldl (bestStep metric) (some (w0, b0)) = some (w, bp)
        ∧ w = metricVal bp.2 metric ∧ (bp = b0 ∨ bp ∈ l) ∧ w ≤ w0
        ∧ ∀ q ∈ l, w ≤ metricVal q.2 metric := by
  intro l
  induction l with
  | nil =>
    intro w0 b0 hw0
    exact ⟨w0, b0, rfl, hw0, Or.inl rfl, le_refl _, by simp⟩
  | cons p t ih =>
    intro w0 b0 hw0
    simp only [List.foldl_cons]
    by_cases hlt : metricVal p.2 metric < w0
    · rw [show bestStep metric (some (w0, b0)) p = some (metricVal p.2 metric, p) by
        simp [bestStep, hlt]]
      obtain ⟨w, bp, heq, hwv, hmem, hle, hmin⟩ := ih (metricVal p.2 metric) p rfl
      refine ⟨w, bp, heq, hwv, ?_, le_of_lt (lt_of_le_of_lt hle hlt), ?_⟩
      · rcases hmem with rfl | hm
        · exact Or.inr (List.mem_cons_self _ _)
        · exact Or.inr (List.mem_cons_of_mem _ hm)
      · intro q hq
        rcases List.mem_cons.1 hq with rfl | hq
        · exact hle
        · exact hmin q hq
    · rw [show bestStep metric (some (w0, b0)) p = some (w0, b0) by
        simp [bestStep, hlt]]
      obtain ⟨w, bp, heq, hwv, hmem, hle, hmin⟩ := ih w0 b0 hw0
      refine ⟨w, bp, heq, hwv, ?_, hle, ?_⟩
      · rcases hmem with rfl | hm
        · exact Or.inl rfl
        · exact Or.inr (List.mem_cons_of_mem _ hm)
      · intro q hq
        rcases List.mem_cons.1 hq with rfl | hq
        · exact le_trans hle (le_of_not_lt hlt)
        · exact hmin q hq

theorem bestEdge_some_spec (G : Graph) (metric : Metric) (u v k : ℕ)
    (data : EdgeData) (h : bestEdge G metric u v = some (k, data)) :
    (k, data) ∈ G.parallel u v
      ∧ (∀ q ∈ G.parallel u v, metricVal data metric ≤ metricVal q.2 metric)
      ∧ metricVal data metric = hopWeight G metric u v := by
  unfold bestEdge at h
  cases hl : G.parallel u v with
  | nil => rw [hl] at h; simp at h
  | cons p t =>
    rw [hl, List.foldl_cons,
      show bestStep metric none p = some (metricVal p.2 metric, p) from rfl] at h
    obtain ⟨w, bp, heq, hwv, hmem, hle, hmin⟩ :=
      bfold_some_spec metric t (metricVal p.2 metric) p rfl
    rw [heq] at h
    simp only [Option.map_some', Option.some.injEq] at h
    subst h
    have hmem2 : (k, data) ∈ G.parallel u v := by
      rw [hl]
      rcases hmem with rfl | hm
      · exact List.mem_cons_self _ _
      · exact List.mem_cons_of_mem _ hm
    have hwv2 : w = metricVal data metric := hwv
    have hminP : ∀ q ∈ G.parallel u v,
        metricVal data metric ≤ metricVal q.2 metric := by
      intro q hq
      rw [hl] at hq
      rcases List.mem_cons.1 hq with rfl | hq
      · exact hwv2 ▸ hle
      · exact hwv2 ▸ hmin q hq
    rw [← hl]
    refine ⟨hmem2, hminP, ?_⟩
    refine le_antisymm ?_ (hopWeight_le G metric u v k data hmem2)
    obtain ⟨kd, hkd, hval⟩ := hopWeight_mem G metric u v (by rw [hl]; simp)
    exact hval ▸ hminP kd hkd

theorem bestEdge_isSome (G : Graph) (metric : Metric) (u v : ℕ)
    (h : G.parallel u v ≠ []) : (bestEdge G metric u v).isSome := by
  unfold bestEdge
  cases hl : G.parallel u v with
  | nil => exact absurd hl h
  | cons p t =>
    rw [List.foldl_cons,
      show bestStep metric none p = some (metricVal p.2 metric, p) from rfl]
    obtain ⟨w, bp, heq, _⟩ := bfold_some_spec metric t (metricVal p.2 metric) p rfl
    rw [heq]
    rfl

theorem parallel_ne_nil_of_adjB (G : Graph) (u v : ℕ)
    (h : G.adjB u v = true) : G.parallel u v ≠ [] := by
  unfold Graph.adjB at h
  rw [Bool.not_eq_true', List.isEmpty_eq_false_iff_exists_mem] at h
  obtain ⟨kd, hkd⟩ := h
  exact fun hnil => by rw [hnil] at hkd; simp at hkd

theorem chainB_hops (R : ℕ → ℕ → Bool) :
    ∀ (p : List ℕ), chainB R p = true →
      ∀ hop ∈ p.zip p.tail, R hop.1 hop.2 = true := by
  intro p
  match p with
  | [] => intro _ hop h; simp at h
  | [_] => intro _ hop h; simp at h
  | u :: v :: rest =>
    intro hc hop hhop
    have hc2 : R u v = true ∧ chainB R (v :: rest) = true := by
      simpa [chainB] using hc
    simp only [List.tail_cons, List.zip_cons_cons, List.mem_cons] at hhop
    rcases hhop with rfl | hhop
    · exact hc2.1
    · exact chainB_hops R (v :: rest) hc2.2 hop (by simpa using hhop)

theorem zip_tail_map_fst :
    ∀ (p : List ℕ), (p.zip p.tail).map Prod.fst = p.dropLast
  | [] => rfl
  | [_] => rfl
  | u :: v :: rest => by
    simp only [List.tail_cons, List.zip_cons_cons, List.map_cons]
    rw [show ((v :: rest).zip rest) = ((v :: rest).zip (v :: rest).tail) from rfl]
    rw [zip_tail_map_fst (v :: rest)]
    rfl

theorem hopPicks_proj (G : Graph) (metric : Metric) :
    ∀ (hops : List (ℕ × ℕ)),
      (∀ hop ∈ hops, (bestEdge G metric hop.1 hop.2).isSome) →
      (hopPicks G metric hops).map (fun pk => (pk.1.1, pk.1.2.1)) = hops := by
  intro hops
  induction hops with
  | nil => intro _; rfl
  | cons hop t ih =>
    intro hall
    have hs := hall hop (List.mem_cons_self _ _)
    obtain ⟨⟨k, data⟩, hkd⟩ := Option.isSome_iff_exists.1 hs
    simp only [hopPicks, List.filterMap_cons, hkd, Option.map_some']
    simpa [hopPicks] using ih (fun h hh => hall h (List.mem_cons_of_mem _ hh))

theorem hopPicks_ids_nodup (G : Graph) (metric : Metric) (p : List ℕ)
    (hnd : p.Nodup)
    (hall : ∀ hop ∈ p.zip p.tail, (bestEdge G metric hop.1 hop.2).isSome) :
    ((hopPicks G metric (p.zip p.tail)).map Prod.fst).Nodup := by
  have hhopsnd : (p.zip p.tail).Nodup := by
    refine List.Nodup.of_map Prod.fst ?_
    rw [zip_tail_map_fst p]
    exact List.Sublist.nodup (List.dropLast_sublist p) hnd
  have hproj : ((hopPicks G metric (p.zip p.tail)).map Prod.fst).map
      (fun i => (i.1, i.2.1)) = p.zip p.tail := by
    rw [List.map_map]
    exact hopPicks_proj G metric (p.zip p.tail) hall
  exact List.Nodup.of_map _ (hproj ▸ hhopsnd)

theorem exactAccum_go (G : Graph) (metric : Metric) :
    ∀ (hops : List (ℕ × ℕ)) (es : Finset EdgeId) (t0 d0 s0 : ℚ),
      hops.foldl (exactStep G metric) (es, t0, d0, s0) =
        (es ∪ ((hopPicks G metric hops).map Prod.fst).toFinset,
          t0 + ((hopPicks G metric hops).map (fun pk => pk.2.travel_time)).sum,
          d0 + ((hopPicks G metric hops).map (fun pk => pk.2.distance)).sum,
          s0 + ((hopPicks G metric hops).map
            (fun pk => pk.2.traffic_weight_score)).sum) := by
  intro hops
  induction hops with
  | nil => intro es t0 d0 s0; simp [hopPicks]
  | cons hop t ih =>
    intro es t0 d0 s0
    rw [List.foldl_cons]
    cases hbe : bestEdge G metric hop.1 hop.2 with
    | none =>
      rw [show exactStep G metric (es, t0, d0, s0) hop = (es, t0, d0, s0) by
        simp [exactStep, hbe]]
      rw [ih es t0 d0 s0]
      simp [hopPicks, List.filterMap_cons, hbe]
    | some kd =>
      obtain ⟨k, data⟩ := kd
      rw [show exactStep G metric (es, t0, d0, s0) hop =
          (insert (hop.1, hop.2, k) es, t0 + data.travel_time,
            d0 + data.distance, s0 + data.traffic_weight_score) by
        simp [exactStep, hbe]]
      rw [ih]
      simp only [hopPicks, List.filterMap_cons, hbe, Option.map_some',
        List.map_cons, List.toFinset_cons, List.sum_cons]
      simp [Finset.insert_union, Finset.union_insert, add_assoc]

theorem exactAccum_spec (G : Graph) (metric : Metric) (hops : List (ℕ × ℕ)) :
    exactAccum G metric hops =
      (((hopPicks G metric hops).map Prod.fst).toFinset,
        ((hopPicks G metric hops).map (fun pk => pk.2.travel_time)).sum,
        ((hopPicks G metric hops).map (fun pk => pk.2.distance)).sum,
        ((hopPicks G metric hops).map
          (fun pk => pk.2.traffic_weight_score)).sum) := by
  unfold exactAccum
  rw [exactAccum_go G metric hops ∅ 0 0 0]
  simp

theorem walkCost_eq_hops (G : Graph) (metric : Metric) :
    ∀ p : List ℕ, walkCost G metric p =
      ((p.zip p.tail).map (fun h => hopWeight G metric h.1 h.2)).sum
  | [] => rfl
  | [_] => by simp [walkCost]
  | u :: v :: rest => by
    simp only [walkCost, List.tail_cons, List.zip_cons_cons, List.map_cons,
      List.sum_cons]
    rw [walkCost_eq_hops G metric (v :: rest)]
    rfl

theorem lookupEdge_of_mem_parallel (G : Graph)
    (huniq : (G.adj.map Entry.eid).Nodup) (u v k : ℕ) (data : EdgeData)
    (h : (k, data) ∈ G.parallel u v) : G.lookupEdge (u, v, k) = some data := by
  have hadj : (u, v, k, data) ∈ G.adj := (mem_parallel_iff G u v k data).1 h
  unfold Graph.lookupEdge
  have hsome : (G.adj.find? (fun e =>
      decide (e.src = u ∧ e.tgt = v ∧ e.key = k))).isSome := by
    rw [List.find?_isSome]
    exact ⟨(u, v, k, data), hadj, by simp [Entry.src, Entry.tgt, Entry.key]⟩
  obtain ⟨e, he⟩ := Option.isSome_iff_exists.1 hsome
  have hmem := List.mem_of_find?_eq_some he
  have hpred := List.find?_some he
  simp only [decide_eq_true_eq] at hpred
  have heid : Entry.eid e = Entry.eid (u, v, k, data) := by
    simp [Entry.eid, Entry.src, Entry.tgt, Entry.key] at hpred ⊢
    exact ⟨hpred.1, hpred.2.1, hpred.2.2⟩
  have : e = (u, v, k, data) :=
    List.inj_on_of_nodup_map huniq hmem hadj heid
  rw [show (fun e => decide (e.src = u ∧ e.tgt = v ∧ e.key = k)) =
    (fun e => decide (Entry.src e = u ∧ Entry.tgt e = v ∧ Entry.key e = k))
    from rfl] at he
  rw [he, this]
  rfl

/-! ### Best-first search: predecessor map and reconstruction lemmas -/

theorem alookup_cons {α : Type} (x : ℕ × α) (l : List (ℕ × α)) (n : ℕ) :
    alookup (x :: l) n = if x.1 = n then some x.2 else alookup l n := by
  simp only [alookup, List.find?_cons]
  split
  · next h => rw [if_pos (by simpa using h)]; rfl
  · next h => rw [if_neg (by simpa using h)]

theorem chainB_append_singleton (R : ℕ → ℕ → Bool) :
    ∀ (l : List ℕ) (x c : ℕ), l.getLast? = some x → chainB R l = true →
      R x c = true → chainB R (l ++ [c]) = true := by
  intro l
  induction l with
  | nil => intro x c hx; simp at hx
  | cons a t ih =>
    intro x c hx hc hR
    cases t with
    | nil =>
      simp only [List.getLast?_singleton, Option.some.injEq] at hx
      subst hx
      simpa [chainB] using hR
    | cons b t2 =>
      have hc2 : R a b = true ∧ chainB R (b :: t2) = true := by
        simpa [chainB] using hc
      have hx2 : (b :: t2).getLast? = some x := by
        rw [← hx]
        exact List.getLast?_cons_cons.symm
      have := ih x c hx2 hc2.2 hR
      simpa [chainB, hc2.1] using this

theorem reconAux_some_spec (pl : List (ℕ × ℕ × ℕ)) (o : ℕ) :
    ∀ (fuel : ℕ) (cur : ℕ) (p : List ℕ) (es : List EdgeId)
      (p2 : List ℕ) (es2 : List EdgeId) (fin : ℕ),
      reconAux pl o fuel cur p es = some (p2, es2, fin) →
      ∃ w ew, p2 = w ++ p ∧ es2 = ew ++ es ∧ PWalk pl cur w ew fin
        ∧ (fin = o ∨ (fin ≠ o ∧ alookup pl fin = none)) ∧ ∀ x ∈ w, x ≠ o := by
  intro fuel
  induction fuel with
  | zero => intro cur p es p2 es2 fin h; simp [reconAux] at h
  | succ n ih =>
    intro cur p es p2 es2 fin h
    rw [reconAux] at h
    by_cases hco : cur = o
    · rw [if_pos hco] at h
      simp only [Option.some.injEq, Prod.mk.injEq] at h
      obtain ⟨hp, hes, hfin⟩ := h
      subst hp
      subst hes
      subst hfin
      exact ⟨[], [], rfl, rfl, PWalk.nil cur, Or.inl hco, by simp⟩
    · rw [if_neg hco] at h
      cases hlk : alookup pl cur with
      | none =>
        rw [hlk] at h
        simp only [Option.some.injEq, Prod.mk.injEq] at h
        obtain ⟨hp, hes, hfin⟩ := h
        subst hp
        subst hes
        subst hfin
        exact ⟨[], [], rfl, rfl, PWalk.nil cur, Or.inr ⟨hco, hlk⟩, by simp⟩
      | some nk =>
        obtain ⟨nxt, k⟩ := nk
        rw [hlk] at h
        obtain ⟨w, ew, hp, hes, hwalk, hfin, hxo⟩ :=
          ih nxt (cur :: p) ((nxt, cur, k) :: es) p2 es2 fin h
        refine ⟨w ++ [cur], ew ++ [(nxt, cur, k)], ?_, ?_,
          PWalk.step hlk hwalk, hfin, ?_⟩
        · rw [hp, List.append_assoc, List.singleton_append]
        · rw [hes, List.append_assoc, List.singleton_append]
        · intro x hx
          rcases List.mem_append.1 hx with hx | hx
          · exact hxo x hx
          · simp only [List.mem_singleton] at hx
            exact hx ▸ hco

theorem pwalk_chain (G : Graph) (pl : List (ℕ × ℕ × ℕ))
    (hpe : PredsOK G pl) :
    ∀ (c : ℕ) (w : List ℕ) (ew : List EdgeId) (fin : ℕ),
      PWalk pl c w ew fin →
      chainB G.adjB (fin :: w) = true ∧ (w = [] → fin = c)
        ∧ (w ≠ [] → w.getLast? = some c) := by
  intro c w ew fin hwalk
  induction hwalk with
  | nil c => exact ⟨by simp [chainB], fun _ => rfl, fun h => absurd rfl h⟩
  | step hlk hw ih =>
    next c2 n k w2 ew2 fin2 =>
    obtain ⟨hchain, hnil, hlast⟩ := ih
    obtain ⟨data, hdata⟩ := hpe c2 n k hlk
    have hadj : G.adjB n c2 = true :=
      (adjB_iff G n c2).2 ⟨k, data, hdata⟩
    refine ⟨?_, fun hcon => absurd hcon (by simp), fun _ => by simp⟩
    rw [show fin2 :: (w2 ++ [c2]) = (fin2 :: w2) ++ [c2] from rfl]
    refine chainB_append_singleton G.adjB (fin2 :: w2) n c2 ?_ hchain hadj
    cases hw2 : w2 with
    | nil =>
      simp [List.getLast?_singleton, hnil hw2]
    | cons a t =>
      rw [List.getLast?_cons_cons]
      have hg := hlast (by rw [hw2]; simp)
      rw [hw2] at hg
      exact hg

theorem relaxStep_cases (G : Graph) (gc : ℕ → ℕ → ℚ) (tw trw dw : ℚ)
    (used : Finset EdgeId) (dest cur : ℕ) (st : AState) (e : Entry) :
    relaxStep G gc tw trw dw used dest cur st e = st ∨
    ∃ gcur,
      alookup st.gList cur = some gcur ∧
      (∀ gv, alookup st.gList e.tgt = some gv →
        gcur + combined_cost tw trw dw used cur e.tgt e.key e.data < gv) ∧
      relaxStep G gc tw trw dw used dest cur st e =
        AState.mk
          ((e.tgt, gcur + combined_cost tw trw dw used cur e.tgt e.key e.data)
            :: st.gList)
          ((e.tgt, cur, e.key) :: st.preds)
          ((gcur + combined_cost tw trw dw used cur e.tgt e.key e.data
              + heuristic gc tw trw dw dest e.tgt, e.tgt) :: st.openL)
          st.visited := by
  unfold relaxStep
  cases halk : alookup st.gList cur with
  | none => exact Or.inl rfl
  | some gcur =>
    dsimp only
    cases hv : alookup st.gList e.tgt with
    | none =>
      refine Or.inr ⟨gcur, rfl, ?_, ?_⟩
      · intro gv hgv
        cases hgv
      · rfl
    | some gv =>
      by_cases ht : gcur + combined_cost tw trw dw used cur e.tgt e.key e.data < gv
      · rw [if_pos (by simpa using ht)]
        refine Or.inr ⟨gcur, rfl, ?_, rfl⟩
        intro gv2 hgv2
        exact (Option.some.inj hgv2) ▸ ht
      · rw [if_neg (by simpa using ht)]
        exact Or.inl rfl

theorem relaxStep_predsOK (G : Graph) (gc : ℕ → ℕ → ℚ) (tw trw dw : ℚ)
    (used : Finset EdgeId) (dest cur : ℕ) (st : AState) (e : Entry)
    (he : e ∈ G.edgesFrom cur) (h : PredsOK G st.preds) :
    PredsOK G (relaxStep G gc tw trw dw used dest cur st e).preds := by
  rcases relaxStep_cases G gc tw trw dw used dest cur st e with heq |
    ⟨gcur, _, _, heq⟩
  · rw [heq]; exact h
  · rw [heq]
    intro a b k hl
    rw [alookup_cons] at hl
    by_cases hae : e.tgt = a
    · rw [if_pos (by simpa using hae)] at hl
      simp only [Option.some.injEq, Prod.mk.injEq] at hl
      have hmem : e ∈ G.adj ∧ e.src = cur := by
        have hf := List.mem_filter.1 he
        exact ⟨hf.1, by simpa using hf.2⟩
      refine ⟨e.data, ?_⟩
      have herepr : e = (cur, a, k, e.data) := by
        obtain ⟨e1, e2, e3, e4⟩ := e
        simp only [Entry.src, Entry.tgt, Entry.key, Entry.data] at hmem hae hl ⊢
        simp only [Prod.mk.injEq]
        exact ⟨hmem.2, hae, hl.2, trivial⟩
      rw [hl.1.symm, ← herepr]
      exact hmem.1
    · rw [if_neg (by simpa using hae)] at hl
      exact h a b k hl

theorem relaxAll_predsOK (G : Graph) (gc : ℕ → ℕ → ℚ) (tw trw dw : ℚ)
    (used : Finset EdgeId) (dest cur : ℕ) (st : AState)
    (h : PredsOK G st.preds) :
    PredsOK G (relaxAll G gc tw trw dw used dest cur st).preds := by
  unfold relaxAll
  have hgen : ∀ (l : List Entry), (∀ e ∈ l, e ∈ G.edgesFrom cur) →
      ∀ (st0 : AState), PredsOK G st0.preds →
      PredsOK G (l.foldl (relaxStep G gc tw trw dw used dest cur) st0).preds := by
    intro l
    induction l with
    | nil => intro _ st0 h0; exact h0
    | cons e t ih =>
      intro hall st0 h0
      rw [List.foldl_cons]
      exact ih (fun x hx => hall x (List.mem_cons_of_mem _ hx)) _
        (relaxStep_predsOK G gc tw trw dw used dest cur st0 e
          (hall e (List.mem_cons_self _ _)) h0)
  exact hgen (G.edgesFrom cur) (fun e he => he) st h

theorem aLoop_predsOK (G : Graph) (gc : ℕ → ℕ → ℚ) (tw trw dw : ℚ)
    (used : Finset EdgeId) (dest : ℕ) :
    ∀ (fuel : ℕ) (st : AState), PredsOK G st.preds →
      ∀ st2, aLoop G gc tw trw dw used dest fuel st = some st2 →
        PredsOK G st2.preds := by
  intro fuel
  induction fuel with
  | zero => intro st _ st2 h2; simp [aLoop] at h2
  | succ n ih =>
    intro st h st2 h2
    rw [aLoop] at h2
    cases hpop : popMin st.openL with
    | none =>
      rw [hpop] at h2
      simp only [Option.some.injEq] at h2
      exact h2 ▸ h
    | some res =>
      obtain ⟨⟨f, cur⟩, rest⟩ := res
      rw [hpop] at h2
      dsimp only at h2
      by_cases hcd : cur = dest
      · rw [if_pos hcd] at h2
        simp only [Option.some.injEq] at h2
        exact h2 ▸ h
      · rw [if_neg hcd] at h2
        by_cases hv : cur ∈ st.visited
        · rw [if_pos hv] at h2
          exact ih (AState.mk st.gList st.preds rest st.visited) h st2 h2
        · rw [if_neg hv] at h2
          refine ih _ ?_ st2 h2
          exact relaxAll_predsOK G gc tw trw dw used dest cur _ h

theorem predsOK_nil (G : Graph) : PredsOK G [] := by
  intro a b k h
  simp [alookup] at h

/-- Case analysis for `find_balanced_route`: either the empty sentinel, or
the loop and the reconstruction succeeded and the result is assembled from
their output. -/
theorem find_balanced_route_shape (G : Graph) (gc : ℕ → ℕ → ℚ) (o d : ℕ)
    (tw trw dw : ℚ) (used : Finset EdgeId) :
    find_balanced_route G gc o d tw trw dw used = emptyRoute ∨
    ∃ st p esL fin,
      (o ∈ G.nodeList ∧ d ∈ G.nodeList) ∧
      aLoop G gc tw trw dw used d (loopFuel G)
        (AState.mk [(o, 0)] [] [(heuristic gc tw trw dw d o, o)] []) = some st ∧
      reconAux st.preds o (st.preds.length + 1) d [] [] = some (p, esL, fin) ∧
      (if fin = o then o :: p else p).head? = some o ∧
      (∀ i ∈ esL, (G.lookupEdge i).isSome) ∧
      find_balanced_route G gc o d tw trw dw used =
        ((if fin = o then o :: p else p),
          sumAttr G esL.toFinset EdgeData.travel_time,
          sumAttr G esL.toFinset EdgeData.distance,
          sumAttr G esL.toFinset EdgeData.traffic_weight_score,
          esL.toFinset) := by
  unfold find_balanced_route
  by_cases hg : ¬(o ∈ G.nodeList ∧ d ∈ G.nodeList)
  · rw [if_pos hg]
    exact Or.inl rfl
  · rw [if_neg hg]
    dsimp only
    cases hal : aLoop G gc tw trw dw used d (loopFuel G)
        (AState.mk [(o, 0)] [] [(heuristic gc tw trw dw d o, o)] []) with
    | none => exact Or.inl rfl
    | some st =>
      dsimp only
      cases hrec : reconAux st.preds o (st.preds.length + 1) d [] [] with
      | none => exact Or.inl rfl
      | some res =>
        obtain ⟨p, esL, fin⟩ := res
        dsimp only
        by_cases hhead : (if fin = o then o :: p else p).head? ≠ some o
        · rw [if_pos hhead]
          exact Or.inl rfl
        · rw [if_neg hhead]
          by_cases hlook : ¬(∀ i ∈ esL, (G.lookupEdge i).isSome)
          · rw [if_pos hlook]
            exact Or.inl rfl
          · rw [if_neg hlook]
            exact Or.inr ⟨st, p, esL, fin, not_not.1 hg, rfl, hrec,
              not_not.1 hhead, not_not.1 hlook, rfl⟩

/-- Case analysis for `find_shortest_path_by_metric`. -/
theorem find_shortest_path_shape (G : Graph) (o d : ℕ) (metric : Metric) :
    (find_shortest_path_by_metric G o d metric = emptyRoute ∧
      (¬(o ∈ G.nodeList ∧ d ∈ G.nodeList) ∨
        shortestPath G o d metric = none)) ∨
    ∃ path,
      (o ∈ G.nodeList ∧ d ∈ G.nodeList) ∧
      shortestPath G o d metric = some path ∧
      find_shortest_path_by_metric G o d metric =
        (path, (exactAccum G metric (path.zip path.tail)).2.1,
          (exactAccum G metric (path.zip path.tail)).2.2.1,
          (exactAccum G metric (path.zip path.tail)).2.2.2,
          (exactAccum G metric (path.zip path.tail)).1) := by
  unfold find_shortest_path_by_metric
  by_cases hg : ¬(o ∈ G.nodeList ∧ d ∈ G.nodeList)
  · rw [if_pos hg]
    exact Or.inl ⟨rfl, Or.inl hg⟩
  · rw [if_neg hg]
    dsimp only
    cases hsp : shortestPath G o d metric with
    | none => exact Or.inl ⟨rfl, Or.inr rfl⟩
    | some path => exact Or.inr ⟨path, not_not.1 hg, rfl, rfl⟩

theorem mem_hopPicks (G : Graph) (metric : Metric) (hops : List (ℕ × ℕ))
    (hop : ℕ × ℕ) (k : ℕ) (data : EdgeData) (hh : hop ∈ hops)
    (hbe : bestEdge G metric hop.1 hop.2 = some (k, data)) :
    ((hop.1, hop.2, k), data) ∈ hopPicks G metric hops := by
  simp only [hopPicks, List.mem_filterMap]
  exact ⟨hop, hh, by rw [hbe]; rfl⟩

theorem hopPicks_mem_spec (G : Graph) (metric : Metric) (hops : List (ℕ × ℕ))
    (pk : EdgeId × EdgeData) (h : pk ∈ hopPicks G metric hops) :
    ∃ hop ∈ hops, bestEdge G metric hop.1 hop.2 = some (pk.1.2.2, pk.2)
      ∧ pk.1 = (hop.1, hop.2, pk.1.2.2) := by
  simp only [hopPicks, List.mem_filterMap] at h
  obtain ⟨hop, hh, heq⟩ := h
  cases hbe : bestEdge G metric hop.1 hop.2 with
  | none => rw [hbe] at heq; simp at heq
  | some kd =>
    rw [hbe] at heq
    simp only [Option.map_some', Option.some.injEq] at heq
    subst heq
    exact ⟨hop, hh, hbe, rfl⟩

/-- All hops of a node walk have a reconstructed edge. -/
theorem walk_hops_isSome (G : Graph) (o d : ℕ) (p : List ℕ) (metric : Metric)
    (hw : IsNodeWalk G o d p) :
    ∀ hop ∈ p.zip p.tail, (bestEdge G metric hop.1 hop.2).isSome := by
  intro hop hh
  exact bestEdge_isSome G metric hop.1 hop.2
    (parallel_ne_nil_of_adjB G hop.1 hop.2 (chainB_hops G.adjB p hw.2.2 hop hh))

/-! ### Walk surgery lemmas for the optimality proof -/

theorem edgeWalk_nodeWalk (G : Graph) (metric : Metric) :
    ∀ (w : List Entry) (n d : ℕ), IsEdgeWalk G n d w →
      IsNodeWalk G n d (n :: w.map Entry.tgt) ∧
      walkCost G metric (n :: w.map Entry.tgt) ≤
        (w.map (fun e => metricVal e.data metric)).sum := by
  intro w
  induction w with
  | nil =>
    intro n d h
    have hnd : n = d := h
    exact ⟨⟨rfl, by simp [hnd], by simp [chainB]⟩, by simp [walkCost]⟩
  | cons e rest ih =>
    intro n d h
    obtain ⟨hmem, hsrc, hrest⟩ := h
    obtain ⟨⟨hh, hl, hc⟩, hcost⟩ := ih e.tgt d hrest
    have hrepr : (n, e.tgt, e.key, e.data) = e := by
      rw [← hsrc]
      rfl
    have hadj : G.adjB n e.tgt = true :=
      (adjB_iff G n e.tgt).2 ⟨e.key, e.data, hrepr ▸ hmem⟩
    refine ⟨⟨rfl, ?_, ?_⟩, ?_⟩
    · rw [List.map_cons, List.getLast?_cons_cons]
      exact hl
    · rw [List.map_cons]
      simpa [chainB, hadj] using hc
    · rw [List.map_cons, List.map_cons, List.sum_cons]
      have hhop : hopWeight G metric n e.tgt ≤ metricVal e.data metric :=
        hopWeight_le G metric n e.tgt e.key e.data
          ((mem_parallel_iff G n e.tgt e.key e.data).2 (hrepr ▸ hmem))
      calc walkCost G metric (n :: e.tgt :: rest.map Entry.tgt)
          = hopWeight G metric n e.tgt
              + walkCost G metric (e.tgt :: rest.map Entry.tgt) := rfl
        _ ≤ metricVal e.data metric
              + (rest.map (fun e => metricVal e.data metric)).sum :=
            add_le_add hhop hcost

theorem walkCost_nonneg (G : Graph) (metric : Metric)
    (h0 : ∀ e ∈ G.adj, 0 ≤ metricVal e.data metric) :
    ∀ p : List ℕ, chainB G.adjB p = true → 0 ≤ walkCost G metric p
  | [] => by simp [walkCost]
  | [_] => by simp [walkCost]
  | u :: v :: rest => by
    intro hc
    have hc2 : G.adjB u v = true ∧ chainB G.adjB (v :: rest) = true := by
      simpa [chainB] using hc
    have hhop : 0 ≤ hopWeight G metric u v := by
      obtain ⟨kd, hkd, hval⟩ := hopWeight_mem G metric u v
        (parallel_ne_nil_of_adjB G u v hc2.1)
      rw [hval]
      have hmem : (u, v, kd.1, kd.2) ∈ G.adj :=
        (mem_parallel_iff G u v kd.1 kd.2).1 hkd
      exact h0 (u, v, kd.1, kd.2) hmem
    have hrest := walkCost_nonneg G metric h0 (v :: rest) hc2.2
    calc (0 : ℚ) ≤ hopWeight G metric u v + walkCost G metric (v :: rest) :=
          add_nonneg hhop hrest
      _ = walkCost G metric (u :: v :: rest) := rfl

theorem walkCost_split (G : Graph) (metric : Metric) :
    ∀ (l1 : List ℕ) (x : ℕ) (l2 : List ℕ),
      walkCost G metric (l1 ++ x :: l2) =
        walkCost G metric (l1 ++ [x]) + walkCost G metric (x :: l2)
  | [] => by intro x l2; simp [walkCost]
  | [a] => by
    intro x l2
    show hopWeight G metric a x + walkCost G metric (x :: l2) =
      (hopWeight G metric a x + walkCost G metric [x])
        + walkCost G metric (x :: l2)
    simp [walkCost]
  | a :: b :: l1 => by
    intro x l2
    have hrec := walkCost_split G metric (b :: l1) x l2
    show hopWeight G metric a b + walkCost G metric ((b :: l1) ++ x :: l2) =
      (hopWeight G metric a b + walkCost G metric ((b :: l1) ++ [x]))
        + walkCost G metric (x :: l2)
    rw [hrec]
    ring

theorem exists_dup_decomp :
    ∀ (p : List ℕ), ¬ p.Nodup → ∃ l1 x l2 l3, p = l1 ++ x :: (l2 ++ x :: l3) := by
  intro p
  induction p with
  | nil => intro h; simp at h
  | cons a t ih =>
    intro h
    by_cases hat : a ∈ t
    · obtain ⟨l2, l3, rfl⟩ := List.append_of_mem hat
      exact ⟨[], a, l2, l3, rfl⟩
    · have hnt : ¬ t.Nodup := fun hnd => h (List.nodup_cons.2 ⟨hat, hnd⟩)
      obtain ⟨l1, x, l2, l3, rfl⟩ := ih hnt
      exact ⟨a :: l1, x, l2, l3, rfl⟩

theorem head?_append_cons {α : Type} :
    ∀ (l1 : List α) (x : α) (a b : List α),
      (l1 ++ x :: a).head? = (l1 ++ x :: b).head? := by
  intro l1 x a b
  cases l1 <;> rfl

theorem getLast?_append_cons {α : Type} :
    ∀ (l1 : List α) (x : α) (l2 : List α),
      (l1 ++ x :: l2).getLast? = (x :: l2).getLast? := by
  intro l1
  induction l1 with
  | nil => intro x l2; rfl
  | cons a t ih =>
    intro x l2
    rw [List.cons_append]
    cases ht : t ++ x :: l2 with
    | nil => exact absurd ht (by simp)
    | cons y ys =>
      rw [List.getLast?_cons_cons, ← ht, ih x l2]

theorem nodeWalk_shorten (G : Graph) (metric : Metric) (o d : ℕ)
    (h0 : ∀ e ∈ G.adj, 0 ≤ metricVal e.data metric) :
    ∀ (n : ℕ) (p : List ℕ), p.length ≤ n → IsNodeWalk G o d p →
      ∃ q, IsNodeWalk G o d q ∧ q.Nodup ∧
        walkCost G metric q ≤ walkCost G metric p := by
  intro n
  induction n with
  | zero =>
    intro p hlen hw
    rw [Nat.le_zero, List.length_eq_zero] at hlen
    subst hlen
    exact absurd hw.1 (by simp)
  | succ m ih =>
    intro p hlen hw
    by_cases hnd : p.Nodup
    · exact ⟨p, hw, hnd, le_refl _⟩
    · obtain ⟨l1, x, l2, l3, rfl⟩ := exists_dup_decomp p hnd
      obtain ⟨hh, hl, hcB⟩ := hw
      have hch : List.Chain' (fun u v => G.adjB u v = true)
          (l1 ++ ((x :: l2) ++ (x :: l3))) := by
        have := (chainB_iff G.adjB _).1 hcB
        simpa using this
      obtain ⟨hch1, hmid, hlink1⟩ := List.chain'_append.1 hch
      obtain ⟨hch2, hch3, hlink2⟩ := List.chain'_append.1 hmid
      have hq : List.Chain' (fun u v => G.adjB u v = true) (l1 ++ x :: l3) := by
        refine List.chain'_append.2 ⟨hch1, hch3, ?_⟩
        intro y hy z hz
        exact hlink1 y hy z (by simpa using hz)
      have hmidchain : List.Chain' (fun u v => G.adjB u v = true)
          ((x :: l2) ++ [x]) := by
        refine List.chain'_append.2 ⟨hch2, List.chain'_singleton x, ?_⟩
        intro y hy z hz
        simp only [List.head?_cons, Option.mem_def, Option.some.injEq] at hz
        exact hz ▸ hlink2 y hy x (by simp)
      have hwq : IsNodeWalk G o d (l1 ++ x :: l3) := by
        refine ⟨?_, ?_, (chainB_iff G.adjB _).2 hq⟩
        · rw [head?_append_cons l1 x l3 (l2 ++ x :: l3)]
          exact hh
        · rw [getLast?_append_cons l1 x l3]
          rw [getLast?_append_cons l1 x (l2 ++ x :: l3)] at hl
          rw [show (x :: (l2 ++ x :: l3)) = ((x :: l2) ++ x :: l3) by simp] at hl
          rw [getLast?_append_cons (x :: l2) x l3] at hl
          exact hl
      have hcost : walkCost G metric (l1 ++ x :: l3) ≤
          walkCost G metric (l1 ++ x :: (l2 ++ x :: l3)) := by
        rw [walkCost_split G metric l1 x l3,
          walkCost_split G metric l1 x (l2 ++ x :: l3)]
        have hsplit2 : walkCost G metric (x :: (l2 ++ x :: l3)) =
            walkCost G metric ((x :: l2) ++ [x]) + walkCost G metric (x :: l3) := by
          rw [show (x :: (l2 ++ x :: l3)) = ((x :: l2) ++ x :: l3) by simp]
          exact walkCost_split G metric (x :: l2) x l3
        rw [hsplit2]
        have hmidpos : 0 ≤ walkCost G metric ((x :: l2) ++ [x]) :=
          walkCost_nonneg G metric h0 _ ((chainB_iff G.adjB _).2 hmidchain)
        linarith
      have hlenq : (l1 ++ x :: l3).length ≤ m := by
        have h1 := hlen
        simp only [List.length_append, List.length_cons] at h1 ⊢
        omega
      obtain ⟨q, hwq2, hndq, hcq⟩ := ih (l1 ++ x :: l3) hlenq hwq
      exact ⟨q, hwq2, hndq, le_trans hcq hcost⟩

theorem hopPicks_metricVal_sum (G : Graph) (metric : Metric) :
    ∀ (hops : List (ℕ × ℕ)),
      (∀ hop ∈ hops, (bestEdge G metric hop.1 hop.2).isSome) →
      ((hopPicks G metric hops).map (fun pk => metricVal pk.2 metric)).sum =
        (hops.map (fun h => hopWeight G metric h.1 h.2)).sum := by
  intro hops
  induction hops with
  | nil => intro _; rfl
  | cons hop t ih =>
    intro hall
    obtain ⟨⟨k, data⟩, hbe⟩ :=
      Option.isSome_iff_exists.1 (hall hop (List.mem_cons_self _ _))
    have hval := (bestEdge_some_spec G metric hop.1 hop.2 k data hbe).2.2
    have hcons : hopPicks G metric (hop :: t) =
        ((hop.1, hop.2, k), data) :: hopPicks G metric t := by
      simp only [hopPicks, List.filterMap_cons, hbe, Option.map_some']
    rw [hcons]
    simp only [List.map_cons, List.sum_cons]
    rw [ih (fun h hh => hall h (List.mem_cons_of_mem _ hh)), hval]

/-! ### Predecessor-cycle lemmas for termination -/

theorem reaches_trans (pl : List (ℕ × ℕ × ℕ)) :
    ∀ {a b c : ℕ}, Reaches pl a b → Reaches pl b c → Reaches pl a c := by
  intro a b c hab
  induction hab with
  | single h => intro hbc; exact Reaches.cons h hbc
  | cons h hmid ih => intro hbc; exact Reaches.cons h (ih hbc)

theorem reaches_nil : ∀ a b : ℕ, ¬ Reaches [] a b := by
  intro a b h
  induction h with
  | single h => simp [alookup] at h
  | cons h _ _ => simp [alookup] at h

theorem acyclic_nil : Acyclic [] := fun a h => reaches_nil a a h

theorem alookup_some_mem_keys {α : Type} (l : List (ℕ × α)) (n : ℕ) (v : α)
    (h : alookup l n = some v) : n ∈ l.map (fun x => x.1) := by
  unfold alookup at h
  cases hf : l.find? (fun p => decide (p.1 = n)) with
  | none => rw [hf] at h; cases h
  | some pr =>
    have hm := List.mem_of_find?_eq_some hf
    have hp := List.find?_some hf
    simp only [decide_eq_true_eq] at hp
    exact hp ▸ List.mem_map.2 ⟨pr, hm, rfl⟩

theorem reaches_cons_decomp (pl : List (ℕ × ℕ × ℕ)) (v cur k : ℕ) :
    ∀ a b, Reaches ((v, cur, k) :: pl) a b →
      Reaches pl a b ∨ ((a = v ∨ Reaches pl a v) ∧ (b = cur ∨ Reaches pl cur b)) := by
  intro a b h
  induction h with
  | single hl =>
    next a2 b2 k2 =>
    rw [alookup_cons] at hl
    by_cases hav : v = a2
    · rw [if_pos (by simpa using hav)] at hl
      simp only [Option.some.injEq, Prod.mk.injEq] at hl
      exact Or.inr ⟨Or.inl hav.symm, Or.inl hl.1.symm⟩
    · rw [if_neg (by simpa using hav)] at hl
      exact Or.inl (Reaches.single hl)
  | cons hl hmid ih =>
    next a2 m k2 b2 =>
    rw [alookup_cons] at hl
    by_cases hav : v = a2
    · rw [if_pos (by simpa using hav)] at hl
      simp only [Option.some.injEq, Prod.mk.injEq] at hl
      rcases ih with hmb | ⟨_, hbc⟩
      · exact Or.inr ⟨Or.inl hav.symm, Or.inr (hl.1 ▸ hmb)⟩
      · exact Or.inr ⟨Or.inl hav.symm, hbc⟩
    · rw [if_neg (by simpa using hav)] at hl
      rcases ih with hmb | ⟨hmv, hbc⟩
      · exact Or.inl (Reaches.cons hl hmb)
      · refine Or.inr ⟨?_, hbc⟩
        rcases hmv with rfl | hmv
        · exact Or.inr (Reaches.single hl)
        · exact Or.inr (Reaches.cons hl hmv)

theorem reaches_gmono (gl : List (ℕ × ℚ)) (pl : List (ℕ × ℕ × ℕ))
    (hg : GMono gl pl) :
    ∀ a b, Reaches pl a b →
      ∃ ga gb, alookup gl a = some ga ∧ alookup gl b = some gb ∧ gb ≤ ga := by
  intro a b h
  induction h with
  | single hl => exact hg _ _ _ hl
  | cons hl hmid ih =>
    obtain ⟨ga, gm, hga, hgm, hle⟩ := hg _ _ _ hl
    obtain ⟨gm2, gb, hgm2, hgb, hle2⟩ := ih
    rw [hgm2] at hgm
    exact ⟨ga, gb, hga, hgb, le_trans hle2 (Option.some.inj hgm ▸ hle)⟩

/-- The reconstruction loop is total for an acyclic predecessor map: the
fuel `pl.length + 1` used by `find_balanced_route` always suffices. -/
theorem reconAux_total (pl : List (ℕ × ℕ × ℕ)) (o : ℕ) (hacyc : Acyclic pl) :
    ∀ cur p es, (reconAux pl o (pl.length + 1) cur p es).isSome := by
  classical
  have hmain : ∀ (fuel : ℕ) (c : ℕ) (p : List ℕ) (es : List EdgeId),
      ((pl.map (fun x => x.1)).toFinset.filter
        (fun z => z = c ∨ Reaches pl c z)).card < fuel →
      (reconAux pl o fuel c p es).isSome := by
    intro fuel
    induction fuel with
    | zero => intro c p es hlt; exact absurd hlt (by simp)
    | succ n ih =>
      intro c p es hlt
      rw [reconAux]
      by_cases hco : c = o
      · rw [if_pos hco]; rfl
      · rw [if_neg hco]
        cases hlk : alookup pl c with
        | none => rfl
        | some nk =>
          obtain ⟨nxt, k⟩ := nk
          refine ih nxt (c :: p) ((nxt, c, k) :: es) ?_
          have hcmem : c ∈ ((pl.map (fun x => x.1)).toFinset.filter
              (fun z => z = c ∨ Reaches pl c z)) := by
            rw [Finset.mem_filter]
            exact ⟨List.mem_toFinset.2 (alookup_some_mem_keys pl c (nxt, k) hlk),
              Or.inl rfl⟩
          have hsub : ((pl.map (fun x => x.1)).toFinset.filter
              (fun z => z = nxt ∨ Reaches pl nxt z)) ⊆
              ((pl.map (fun x => x.1)).toFinset.filter
                (fun z => z = c ∨ Reaches pl c z)).erase c := by
            intro z hz
            rw [Finset.mem_filter] at hz
            obtain ⟨hzk, hzr⟩ := hz
            have hreach : Reaches pl c z := by
              rcases hzr with rfl | hzr
              · exact Reaches.single hlk
              · exact Reaches.cons hlk hzr
            rw [Finset.mem_erase, Finset.mem_filter]
            refine ⟨?_, hzk, Or.inr hreach⟩
            intro hzc
            exact hacyc c (hzc ▸ hreach)
          calc ((pl.map (fun x => x.1)).toFinset.filter
                (fun z => z = nxt ∨ Reaches pl nxt z)).card
              ≤ (((pl.map (fun x => x.1)).toFinset.filter
                  (fun z => z = c ∨ Reaches pl c z)).erase c).card :=
                Finset.card_le_card hsub
            _ = ((pl.map (fun x => x.1)).toFinset.filter
                  (fun z => z = c ∨ Reaches pl c z)).card - 1 :=
                Finset.card_erase_of_mem hcmem
            _ < n := by
                have hpos := Finset.card_pos.2 ⟨c, hcmem⟩
                omega
  intro cur p es
  refine hmain (pl.length + 1) cur p es ?_
  calc ((pl.map (fun x => x.1)).toFinset.filter
        (fun z => z = cur ∨ Reaches pl cur z)).card
      ≤ (pl.map (fun x => x.1)).toFinset.card := Finset.card_filter_le _ _
    _ ≤ (pl.map (fun x => x.1)).length := (pl.map (fun x => x.1)).toFinset_card_le
    _ = pl.length := List.length_map _ _
    _ < pl.length + 1 := Nat.lt_succ_self _

theorem combined_cost_nonneg (tw trw dw : ℚ) (used : Finset EdgeId)
    (cur : ℕ) (e : Entry) (htw : 0 ≤ tw) (htrw : 0 ≤ trw) (hdw : 0 ≤ dw)
    (htt : 0 ≤ e.data.travel_time) (hdi : 0 ≤ e.data.distance)
    (hts : 0 ≤ e.data.traffic_weight_score) :
    0 ≤ combined_cost tw trw dw used cur e.tgt e.key e.data := by
  unfold combined_cost
  have hpen : (0 : ℚ) ≤
      (if (cur, e.tgt, e.key) ∈ used then (1000000 : ℚ) else 0) := by
    split <;> norm_num
  have h1 : 0 ≤ tw * e.data.travel_time := mul_nonneg htw htt
  have h2 : 0 ≤ trw * (e.data.traffic_weight_score * e.data.distance / 1000) := by
    refine mul_nonneg htrw (div_nonneg (mul_nonneg hts hdi) (by norm_num))
  have h3 : 0 ≤ dw * (e.data.distance / 1000) :=
    mul_nonneg hdw (div_nonneg hdi (by norm_num))
  linarith

/-- One relaxation preserves the `g`-monotonicity of predecessor links and
the acyclicity of the predecessor map, provided the relaxed edge's traversal
cost is nonnegative. -/
theorem relaxStep_inv (G : Graph) (gc : ℕ → ℕ → ℚ) (tw trw dw : ℚ)
    (used : Finset EdgeId) (dest cur : ℕ) (st : AState) (e : Entry)
    (hc : 0 ≤ combined_cost tw trw dw used cur e.tgt e.key e.data)
    (hg : GMono st.gList st.preds) (hacyc : Acyclic st.preds) :
    GMono (relaxStep G gc tw trw dw used dest cur st e).gList
        (relaxStep G gc tw trw dw used dest cur st e).preds
      ∧ Acyclic (relaxStep G gc tw trw dw used dest cur st e).preds := by
  rcases relaxStep_cases G gc tw trw dw used dest cur st e with heq |
    ⟨gcur, halk, hlt, heq⟩
  · rw [heq]; exact ⟨hg, hacyc⟩
  · rw [heq]
    have hvc : e.tgt ≠ cur := by
      intro hvc
      have := hlt gcur (hvc ▸ halk)
      linarith
    constructor
    · intro a b kk hl
      rw [alookup_cons] at hl
      by_cases hav : e.tgt = a
      · rw [if_pos (by simpa using hav)] at hl
        simp only [Option.some.injEq, Prod.mk.injEq] at hl
        refine ⟨gcur + combined_cost tw trw dw used cur e.tgt e.key e.data,
          gcur, ?_, ?_, by linarith⟩
        · rw [alookup_cons, if_pos (by simpa using hav)]
        · rw [alookup_cons,
            if_neg (by simpa using (fun h => hvc (h.trans hl.1.symm) : ¬ e.tgt = b)),
            ← hl.1]
          exact halk
      · rw [if_neg (by simpa using hav)] at hl
        obtain ⟨ga, gb, hga, hgb, hle⟩ := hg a b kk hl
        by_cases hbv : b = e.tgt
        · have hlt2 := hlt gb (hbv ▸ hgb)
          refine ⟨ga, gcur + combined_cost tw trw dw used cur e.tgt e.key e.data,
            ?_, ?_, by linarith⟩
          · rw [alookup_cons, if_neg (by simpa using hav)]
            exact hga
          · rw [alookup_cons, if_pos (by simpa using hbv.symm)]
        · refine ⟨ga, gb, ?_, ?_, hle⟩
          · rw [alookup_cons, if_neg (by simpa using hav)]
            exact hga
          · rw [alookup_cons, if_neg (by simpa using (fun h => hbv h.symm : ¬ e.tgt = b))]
            exact hgb
    · intro a hra
      rcases reaches_cons_decomp st.preds e.tgt cur e.key a a hra with hcycle |
        ⟨hav, hac⟩
      · exact hacyc a hcycle
      · have hcv : Reaches st.preds cur e.tgt := by
          rcases hav with rfl | hav
          · rcases hac with rfl | hac
            · exact absurd rfl hvc
            · exact hac
          · rcases hac with rfl | hac
            · exact hav
            · exact reaches_trans st.preds hac hav
        obtain ⟨gcur2, gv, hgc2, hgv, hle⟩ :=
          reaches_gmono st.gList st.preds hg cur e.tgt hcv
        rw [halk] at hgc2
        have hlt2 := hlt gv hgv
        have := Option.some.inj hgc2
        linarith [hlt2, hle]

theorem relaxAll_inv (G : Graph) (gc : ℕ → ℕ → ℚ) (tw trw dw : ℚ)
    (used : Finset EdgeId) (dest cur : ℕ) (st : AState)
    (htw : 0 ≤ tw) (htrw : 0 ≤ trw) (hdw : 0 ≤ dw)
    (hattr : ∀ e ∈ G.adj, 0 ≤ e.data.travel_time ∧ 0 ≤ e.data.distance
      ∧ 0 ≤ e.data.traffic_weight_score)
    (hg : GMono st.gList st.preds) (hacyc : Acyclic st.preds) :
    GMono (relaxAll G gc tw trw dw used dest cur st).gList
        (relaxAll G gc tw trw dw used dest cur st).preds
      ∧ Acyclic (relaxAll G gc tw trw dw used dest cur st).preds := by
  unfold relaxAll
  have hgen : ∀ (l : List Entry), (∀ e ∈ l, e ∈ G.adj) → ∀ (st0 : AState),
      GMono st0.gList st0.preds → Acyclic st0.preds →
      GMono (l.foldl (relaxStep G gc tw trw dw used dest cur) st0).gList
          (l.foldl (relaxStep G gc tw trw dw used dest cur) st0).preds
        ∧ Acyclic (l.foldl (relaxStep G gc tw trw dw used dest cur) st0).preds := by
    intro l
    induction l with
    | nil => intro _ st0 h0 h1; exact ⟨h0, h1⟩
    | cons e t ih =>
      intro hall st0 h0 h1
      rw [List.foldl_cons]
      obtain ⟨ha1, ha2, ha3⟩ := hattr e (hall e (List.mem_cons_self _ _))
      obtain ⟨h2, h3⟩ := relaxStep_inv G gc tw trw dw used dest cur st0 e
        (combined_cost_nonneg tw trw dw used cur e htw htrw hdw ha1 ha2 ha3)
        h0 h1
      exact ih (fun x hx => hall x (List.mem_cons_of_mem _ hx)) _ h2 h3
  refine hgen (G.edgesFrom cur) (fun e he => ?_) st hg hacyc
  exact (List.mem_filter.1 he).1

theorem aLoop_inv (G : Graph) (gc : ℕ → ℕ → ℚ) (tw trw dw : ℚ)
    (used : Finset EdgeId) (dest : ℕ)
    (htw : 0 ≤ tw) (htrw : 0 ≤ trw) (hdw : 0 ≤ dw)
    (hattr : ∀ e ∈ G.adj, 0 ≤ e.data.travel_time ∧ 0 ≤ e.data.distance
      ∧ 0 ≤ e.data.traffic_weight_score) :
    ∀ (fuel : ℕ) (st : AState), GMono st.gList st.preds → Acyclic st.preds →
      ∀ st2, aLoop G gc tw trw dw used dest fuel st = some st2 →
        GMono st2.gList st2.preds ∧ Acyclic st2.preds := by
  intro fuel
  induction fuel with
  | zero => intro st _ _ st2 h2; simp [aLoop] at h2
  | succ n ih =>
    intro st hg hacyc st2 h2
    rw [aLoop] at h2
    cases hpop : popMin st.openL with
    | none =>
      rw [hpop] at h2
      simp only [Option.some.injEq] at h2
      exact h2 ▸ ⟨hg, hacyc⟩
    | some res =>
      obtain ⟨⟨f, cur⟩, rest⟩ := res
      rw [hpop] at h2
      dsimp only at h2
      by_cases hcd : cur = dest
      · rw [if_pos hcd] at h2
        simp only [Option.some.injEq] at h2
        exact h2 ▸ ⟨hg, hacyc⟩
      · rw [if_neg hcd] at h2
        by_cases hv : cur ∈ st.visited
        · rw [if_pos hv] at h2
          exact ih (AState.mk st.gList st.preds rest st.visited) hg hacyc st2 h2
        · rw [if_neg hv] at h2
          obtain ⟨h3, h4⟩ := relaxAll_inv G gc tw trw dw used dest cur
            (AState.mk st.gList st.preds rest (cur :: st.visited))
            htw htrw hdw hattr hg hacyc
          exact ih _ h3 h4 st2 h2

theorem foldl_choice {α : Type} (f : α → α → α)
    (hf : ∀ a b, f a b = a ∨ f a b = b) :
    ∀ (t : List α) (h : α), t.foldl f h ∈ h :: t := by
  intro t
  induction t with
  | nil => intro h; simp
  | cons a t ih =>
    intro h
    rw [List.foldl_cons]
    rcases List.mem_cons.1 (ih (f h a)) with he | hm
    · rw [he]
      rcases hf h a with h1 | h1 <;> rw [h1]
      · exact List.mem_cons_self _ _
      · exact List.mem_cons_of_mem _ (List.mem_cons_self _ _)
    · exact List.mem_cons_of_mem _ (List.mem_cons_of_mem _ hm)

theorem popMin_spec (l : List (ℚ × ℕ)) (m : ℚ × ℕ) (rest : List (ℚ × ℕ))
    (h : popMin l = some (m, rest)) : m ∈ l ∧ rest = l.erase m := by
  unfold popMin at h
  cases l with
  | nil => cases h
  | cons a t =>
    dsimp only at h
    simp only [Option.some.injEq, Prod.mk.injEq] at h
    obtain ⟨hm, hrest⟩ := h
    constructor
    · rw [← hm]
      refine foldl_choice _ (fun x y => ?_) t a
      dsimp only
      split
      · exact Or.inr rfl
      · exact Or.inl rfl
    · rw [← hrest, ← hm]

theorem relaxStep_frame (G : Graph) (gc : ℕ → ℕ → ℚ) (tw trw dw : ℚ)
    (used : Finset EdgeId) (dest cur : ℕ) (st : AState) (e : Entry) :
    (relaxStep G gc tw trw dw used dest cur st e).visited = st.visited ∧
    (relaxStep G gc tw trw dw used dest cur st e).openL.length ≤
      st.openL.length + 1 ∧
    ∀ fn ∈ (relaxStep G gc tw trw dw used dest cur st e).openL,
      fn ∈ st.openL ∨ fn.2 = e.tgt := by
  rcases relaxStep_cases G gc tw trw dw used dest cur st e with heq |
    ⟨gcur, _, _, heq⟩ <;> rw [heq]
  · exact ⟨rfl, Nat.le_succ _, fun fn h => Or.inl h⟩
  · refine ⟨rfl, by simp, ?_⟩
    intro fn h
    rcases List.mem_cons.1 h with rfl | h
    · exact Or.inr rfl
    · exact Or.inl h

theorem relaxAll_frame (G : Graph) (gc : ℕ → ℕ → ℚ) (tw trw dw : ℚ)
    (used : Finset EdgeId) (dest cur : ℕ) (st : AState) :
    (relaxAll G gc tw trw dw used dest cur st).visited = st.visited ∧
    (relaxAll G gc tw trw dw used dest cur st).openL.length ≤
      st.openL.length + (G.edgesFrom cur).length ∧
    ∀ fn ∈ (relaxAll G gc tw trw dw used dest cur st).openL,
      fn ∈ st.openL ∨ ∃ e ∈ G.edgesFrom cur, fn.2 = e.tgt := by
  unfold relaxAll
  have hgen : ∀ (l : List Entry) (st0 : AState),
      (l.foldl (relaxStep G gc tw trw dw used dest cur) st0).visited =
        st0.visited ∧
      (l.foldl (relaxStep G gc tw trw dw used dest cur) st0).openL.length ≤
        st0.openL.length + l.length ∧
      ∀ fn ∈ (l.foldl (relaxStep G gc tw trw dw used dest cur) st0).openL,
        fn ∈ st0.openL ∨ ∃ e ∈ l, fn.2 = e.tgt := by
    intro l
    induction l with
    | nil => intro st0; exact ⟨rfl, by simp, fun fn h => Or.inl h⟩
    | cons e t ih =>
      intro st0
      rw [List.foldl_cons]
      obtain ⟨hv1, hl1, hm1⟩ :=
        relaxStep_frame G gc tw trw dw used dest cur st0 e
      obtain ⟨hv2, hl2, hm2⟩ := ih (relaxStep G gc tw trw dw used dest cur st0 e)
      refine ⟨hv2.trans hv1, ?_, ?_⟩
      · calc (t.foldl (relaxStep G gc tw trw dw used dest cur)
              (relaxStep G gc tw trw dw used dest cur st0 e)).openL.length
            ≤ (relaxStep G gc tw trw dw used dest cur st0 e).openL.length
              + t.length := hl2
          _ ≤ st0.openL.length + 1 + t.length := by omega
          _ = st0.openL.length + (e :: t).length := by
              simp only [List.length_cons]
              omega
      · intro fn h
        rcases hm2 fn h with hin | ⟨e2, he2, hfn⟩
        · rcases hm1 fn hin with hin0 | hfn
          · exact Or.inl hin0
          · exact Or.inr ⟨e, List.mem_cons_self _ _, hfn⟩
        · exact Or.inr ⟨e2, List.mem_cons_of_mem _ he2, hfn⟩
  exact hgen (G.edgesFrom cur) st

/-- The main loop is total: with fuel exceeding the measure
`|frontier| + |unvisited| · (|edges| + 1)` it always reaches either an empty
frontier or the destination pop. -/
theorem aLoop_isSome (G : Graph) (gc : ℕ → ℕ → ℚ) (tw trw dw : ℚ)
    (used : Finset EdgeId) (dest : ℕ) :
    ∀ (fuel : ℕ) (st : AState),
      (∀ fn ∈ st.openL, fn.2 ∈ G.universe) →
      st.openL.length + (G.universe.toFinset \ st.visited.toFinset).card
        * (G.adj.length + 1) < fuel →
      (aLoop G gc tw trw dw used dest fuel st).isSome := by
  intro fuel
  induction fuel with
  | zero => intro st _ h; exact absurd h (by simp)
  | succ n ih =>
    intro st hV hm
    rw [aLoop]
    cases hpop : popMin st.openL with
    | none => rfl
    | some res =>
      obtain ⟨⟨f, cur⟩, rest⟩ := res
      obtain ⟨hmem, hrest⟩ := popMin_spec st.openL (f, cur) rest hpop
      have hlen : rest.length = st.openL.length - 1 := by
        rw [hrest]
        exact List.length_erase_of_mem hmem
      have hopos : 0 < st.openL.length := by
        cases ho : st.openL with
        | nil => rw [ho] at hmem; exact absurd hmem (List.not_mem_nil _)
        | cons x xs => simp
      dsimp only
      by_cases hcd : cur = dest
      · rw [if_pos hcd]; rfl
      · rw [if_neg hcd]
        by_cases hv : cur ∈ st.visited
        · rw [if_pos hv]
          refine ih (AState.mk st.gList st.preds rest st.visited) ?_ ?_
          · intro fn hfn
            refine hV fn ?_
            rw [hrest] at hfn
            exact List.mem_of_mem_erase hfn
          · dsimp only
            omega
        · rw [if_neg hv]
          obtain ⟨hv2, hl2, hm2⟩ := relaxAll_frame G gc tw trw dw used dest cur
            (AState.mk st.gList st.preds rest (cur :: st.visited))
          refine ih _ ?_ ?_
          · intro fn hfn
            rcases hm2 fn hfn with hin | ⟨e, he, hfn2⟩
            · refine hV fn ?_
              dsimp only at hin
              rw [hrest] at hin
              exact List.mem_of_mem_erase hin
            · rw [hfn2]
              exact mem_universe_of_tgt G e ((List.mem_filter.1 he).1)
          · rw [hv2]
            dsimp only
            have hcur_univ : cur ∈ G.universe := hV (f, cur) hmem
            have hcurS : cur ∈ G.universe.toFinset \ st.visited.toFinset :=
              Finset.mem_sdiff.2 ⟨List.mem_toFinset.2 hcur_univ,
                fun hc => hv (List.mem_toFinset.1 hc)⟩
            have hcard : (G.universe.toFinset
                \ (cur :: st.visited).toFinset).card =
                (G.universe.toFinset \ st.visited.toFinset).card - 1 := by
              rw [List.toFinset_cons, Finset.sdiff_insert]
              exact Finset.card_erase_of_mem hcurS
            have hE : (G.edgesFrom cur).length ≤ G.adj.length :=
              List.length_filter_le _ _
            have hCpos : 0 <
                (G.universe.toFinset \ st.visited.toFinset).card :=
              Finset.card_pos.2 ⟨cur, hcurS⟩
            have hkey : ((G.universe.toFinset \ st.visited.toFinset).card - 1)
                * (G.adj.length + 1) =
                (G.universe.toFinset \ st.visited.toFinset).card
                  * (G.adj.length + 1) - (G.adj.length + 1) :=
              Nat.sub_one_mul _ _
            have hMge : G.adj.length + 1 ≤
                (G.universe.toFinset \ st.visited.toFinset).card
                  * (G.adj.length + 1) :=
              Nat.le_mul_of_pos_left _ hCpos
            rw [hcard, hkey]
            dsimp only at hl2
            omega

/-! ### C1 -/

/-- C1: the claim states that with a missing endpoint every search returns an
empty Route and `find_all_route_options` returns an empty list without
raising.  The two searches do return the empty sentinel, but the orchestrator
calls `nx.has_path` unguarded, and `has_path` raises `NodeNotFound` (only
`NetworkXNoPath` is converted to `False` inside it), so the exception escapes
to the caller: on the concrete graph with nodes `{1, 2}` and origin `3`, the
orchestrator evaluates to the `NodeNotFound` error, not to `[]`. -/
theorem find_all_route_options_missing_endpoint_raises :
    find_balanced_route exG1 gc0 3 2 0.5 0.3 0.2 ∅ = emptyRoute
      ∧ find_shortest_path_by_metric exG1 3 2 .distance = emptyRoute
      ∧ find_all_route_options exG1 gc0 3 2 = .error .nodeNotFound := by
  refine ⟨by rfl, by rfl, by rfl⟩

/-! ### C3 -/

/-- C3: the traversal cost of every edge relaxation candidate is exactly
`time_weight·travel_time + traffic_weight·(traffic_weight_score·distance/1000)
+ distance_weight·(distance/1000)`, plus the fixed `1000000` penalty exactly
when the candidate's `(source, target, key)` identifier is in `used_edges`;
and a relaxation either leaves the state unchanged or records precisely
`g_cost[current] +` that cost for the neighbour (and pushes it with the
heuristic added). -/
theorem relax_cost_formula (G : Graph) (gc : ℕ → ℕ → ℚ) (tw trw dw : ℚ)
    (used : Finset EdgeId) (dest cur : ℕ) (st : AState) (e : Entry) (gcur : ℚ)
    (hg : alookup st.gList cur = some gcur) :
    combined_cost tw trw dw used cur e.tgt e.key e.data =
        tw * e.data.travel_time
          + trw * (e.data.traffic_weight_score * e.data.distance / 1000)
          + dw * (e.data.distance / 1000)
          + (if (cur, e.tgt, e.key) ∈ used then (1000000 : ℚ) else 0)
      ∧ (relaxStep G gc tw trw dw used dest cur st e = st
        ∨ relaxStep G gc tw trw dw used dest cur st e =
            AState.mk
              ((e.tgt, gcur + combined_cost tw trw dw used cur e.tgt e.key e.data)
                :: st.gList)
              ((e.tgt, cur, e.key) :: st.preds)
              ((gcur + combined_cost tw trw dw used cur e.tgt e.key e.data
                  + heuristic gc tw trw dw dest e.tgt, e.tgt) :: st.openL)
              st.visited) := by
  constructor
  · simp only [combined_cost]
  · simp only [relaxStep, hg]
    split
    · exact Or.inr rfl
    · exact Or.inl rfl

/-- C3 witness: the formula and the dichotomy instantiated at a concrete
state with `g_cost[1] = 0`. -/
theorem relax_cost_formula_witness :
    combined_cost 0.5 0.3 0.2 {(1, 2, 0)} 1 (2 : ℕ) (0 : ℕ)
          (EdgeData.mk 5 5 1) =
        (0.5 : ℚ) * 5 + 0.3 * (1 * 5 / 1000) + 0.2 * (5 / 1000)
          + (if ((1, 2, 0) : EdgeId) ∈ ({(1, 2, 0)} : Finset EdgeId)
              then (1000000 : ℚ) else 0)
      ∧ (relaxStep exG1 gc0 0.5 0.3 0.2 {(1, 2, 0)} 2 1
              (AState.mk [(1, 0)] [] [] []) (1, 2, 0, EdgeData.mk 5 5 1) =
            AState.mk [(1, 0)] [] [] []
        ∨ relaxStep exG1 gc0 0.5 0.3 0.2 {(1, 2, 0)} 2 1
              (AState.mk [(1, 0)] [] [] []) (1, 2, 0, EdgeData.mk 5 5 1) =
            AState.mk
              [((2 : ℕ), (0 : ℚ) + combined_cost 0.5 0.3 0.2 {(1, 2, 0)} 1 2 0
                  (EdgeData.mk 5 5 1)), (1, 0)]
              [(2, 1, 0)]
              [((0 : ℚ) + combined_cost 0.5 0.3 0.2 {(1, 2, 0)} 1 2 0
                  (EdgeData.mk 5 5 1) + heuristic gc0 0.5 0.3 0.2 2 2, 2)]
              []) := by
  have h := relax_cost_formula exG1 gc0 0.5 0.3 0.2 {(1, 2, 0)} 2 1
    (AState.mk [(1, 0)] [] [] []) (1, 2, 0, EdgeData.mk 5 5 1) 0 (by decide)
  exact h

/-- C4: whenever the orchestrator returns a list `rs`, that list is exactly
the fixed-order sequence Balanced (0.5/0.3/0.2), Time-Optimized
(0.8/0.1/0.1), Traffic-Avoiding (0.2/0.7/0.1), Distance-Optimized (exact
solve by distance) — each run with the threaded accumulator — label-tagged
and filtered to the successful (nonempty) results, so failed searches are
silently skipped and nothing is re-sorted; `rs` has at most 4 entries; and
when no path exists, `rs` is empty. -/
theorem orchestrator_fixed_order_and_skip (G : Graph) (gc : ℕ → ℕ → ℚ)
    (o d : ℕ) (rs : List LabeledRoute)
    (h : find_all_route_options G gc o d = .ok rs) :
    (has_path G o d = .ok false → rs = []) ∧ rs.length ≤ 4 ∧
      (has_path G o d = .ok true →
        rs = ([("Balanced", balancedStage G gc o d),
          ("Time-Optimized", timeStage G gc o d),
          ("Traffic-Avoiding", trafficStage G gc o d),
          ("Distance-Optimized", distanceStage G o d)].filter
            (fun x => decide (x.2.1 ≠ [])))) := by
  cases hhp : has_path G o d with
  | error e =>
    simp only [find_all_route_options, hhp] at h
    exact absurd h (by simp)
  | ok b =>
    cases b with
    | false =>
      simp only [find_all_route_options, hhp, Except.ok.injEq] at h
      subst h
      exact ⟨fun _ => rfl, by simp, fun hc => by simp at hc⟩
    | true =>
      have hs := find_all_route_options_stages G gc o d hhp
      rw [h, Except.ok.injEq] at hs
      subst hs
      refine ⟨fun hc => by simp at hc, ?_, fun _ => ?_⟩
      · have l1 := tagged_length_le "Balanced" (balancedStage G gc o d)
        have l2 := tagged_length_le "Time-Optimized" (timeStage G gc o d)
        have l3 := tagged_length_le "Traffic-Avoiding" (trafficStage G gc o d)
        have l4 := tagged_length_le "Distance-Optimized" (distanceStage G o d)
        simp only [List.length_append]
        omega
      · exact (filter_four ("Balanced", balancedStage G gc o d)
          ("Time-Optimized", timeStage G gc o d)
          ("Traffic-Avoiding", trafficStage G gc o d)
          ("Distance-Optimized", distanceStage G o d)).symm

/-- C4 witness: on the one-edge graph with both endpoints present the
orchestrator returns four entries; the conclusion instantiated there. -/
theorem orchestrator_fixed_order_and_skip_witness :
    (has_path exG1 1 2 = .ok false →
      (tagged "Balanced" (balancedStage exG1 gc0 1 2) ++
        tagged "Time-Optimized" (timeStage exG1 gc0 1 2) ++
        tagged "Traffic-Avoiding" (trafficStage exG1 gc0 1 2) ++
        tagged "Distance-Optimized" (distanceStage exG1 1 2)) = []) ∧
    (tagged "Balanced" (balancedStage exG1 gc0 1 2) ++
      tagged "Time-Optimized" (timeStage exG1 gc0 1 2) ++
      tagged "Traffic-Avoiding" (trafficStage exG1 gc0 1 2) ++
      tagged "Distance-Optimized" (distanceStage exG1 1 2)).length ≤ 4 ∧
    (has_path exG1 1 2 = .ok true →
      (tagged "Balanced" (balancedStage exG1 gc0 1 2) ++
        tagged "Time-Optimized" (timeStage exG1 gc0 1 2) ++
        tagged "Traffic-Avoiding" (trafficStage exG1 gc0 1 2) ++
        tagged "Distance-Optimized" (distanceStage exG1 1 2)) =
        ([("Balanced", balancedStage exG1 gc0 1 2),
          ("Time-Optimized", timeStage exG1 gc0 1 2),
          ("Traffic-Avoiding", trafficStage exG1 gc0 1 2),
          ("Distance-Optimized", distanceStage exG1 1 2)].filter
            (fun x => decide (x.2.1 ≠ [])))) :=
  orchestrator_fixed_order_and_skip exG1 gc0 1 2 _ (by rfl)

/-- C7: the accumulator starts empty; each successive value is the union of
the previous one with the newest successful weighted search's edge set
(`∅ ⊆ used1 ⊆ used2 ⊆ used3`), so it only grows across the three
weighted searches; and the Distance-Optimized stage is
`find_shortest_path_by_metric G o d distance` — no accumulator occurs in
this expression, so the exact search is independent of it. -/
theorem used_edges_accumulator_monotone (G : Graph) (gc : ℕ → ℕ → ℚ)
    (o d : ℕ) (h : has_path G o d = .ok true) :
    (∅ : Finset EdgeId) ⊆ used1 G gc o d ∧
      used1 G gc o d ⊆ used2 G gc o d ∧
      used2 G gc o d ⊆ used3 G gc o d ∧
      distanceStage G o d = find_shortest_path_by_metric G o d .distance ∧
      find_all_route_options G gc o d = .ok
        (tagged "Balanced" (balancedStage G gc o d) ++
          tagged "Time-Optimized" (timeStage G gc o d) ++
          tagged "Traffic-Avoiding" (trafficStage G gc o d) ++
          tagged "Distance-Optimized" (distanceStage G o d)) := by
  refine ⟨Finset.empty_subset _, ?_, ?_, rfl,
    find_all_route_options_stages G gc o d h⟩
  · unfold used2
    split
    · exact Finset.subset_union_left
    · exact Finset.Subset.refl _
  · unfold used3
    split
    · exact Finset.subset_union_left
    · exact Finset.Subset.refl _

/-- C7 witness: the monotone accumulator chain on the one-edge graph. -/
theorem used_edges_accumulator_monotone_witness :
    (∅ : Finset EdgeId) ⊆ used1 exG1 gc0 1 2 ∧
      used1 exG1 gc0 1 2 ⊆ used2 exG1 gc0 1 2 ∧
      used2 exG1 gc0 1 2 ⊆ used3 exG1 gc0 1 2 ∧
      distanceStage exG1 1 2 = find_shortest_path_by_metric exG1 1 2 .distance ∧
      find_all_route_options exG1 gc0 1 2 = .ok
        (tagged "Balanced" (balancedStage exG1 gc0 1 2) ++
          tagged "Time-Optimized" (timeStage exG1 gc0 1 2) ++
          tagged "Traffic-Avoiding" (trafficStage exG1 gc0 1 2) ++
          tagged "Distance-Optimized" (distanceStage exG1 1 2)) :=
  used_edges_accumulator_monotone exG1 gc0 1 2 (by rfl)

/-! ### C5 -/

/-- C5: every non-empty Route returned by the Weighted Pathfinder or by the
Exact Single-Metric Solver starts at the query origin, ends at the query
destination, and every consecutive node pair of its path is joined by at
least one graph edge. -/
theorem route_endpoints_and_adjacency (G : Graph) (gc : ℕ → ℕ → ℚ) (o d : ℕ)
    (tw trw dw : ℚ) (used : Finset EdgeId) (metric : Metric) :
    ((find_balanced_route G gc o d tw trw dw used).1 ≠ [] →
      (find_balanced_route G gc o d tw trw dw used).1.head? = some o ∧
        (find_balanced_route G gc o d tw trw dw used).1.getLast? = some d ∧
        List.Chain' (fun u v => G.adjB u v = true)
          (find_balanced_route G gc o d tw trw dw used).1) ∧
    ((find_shortest_path_by_metric G o d metric).1 ≠ [] →
      (find_shortest_path_by_metric G o d metric).1.head? = some o ∧
        (find_shortest_path_by_metric G o d metric).1.getLast? = some d ∧
        List.Chain' (fun u v => G.adjB u v = true)
          (find_shortest_path_by_metric G o d metric).1) := by
  constructor
  · intro hne
    rcases find_balanced_route_shape G gc o d tw trw dw used with hemp |
      ⟨st, p, esL, fin, hguard, hal, hrec, hhead, hlook, heq⟩
    · rw [hemp] at hne
      simp [emptyRoute] at hne
    · rw [heq] at hne ⊢
      have hpok : PredsOK G st.preds :=
        aLoop_predsOK G gc tw trw dw used d (loopFuel G)
          (AState.mk [(o, 0)] [] [(heuristic gc tw trw dw d o, o)] [])
          (predsOK_nil G) st hal
      obtain ⟨w, ew, hp, hes, hwalk, hfin, hxo⟩ :=
        reconAux_some_spec st.preds o (st.preds.length + 1) d [] [] p esL fin hrec
      rw [List.append_nil] at hp hes
      obtain ⟨hchain, hnil, hlast⟩ := pwalk_chain G st.preds hpok d w ew fin hwalk
      subst hp
      by_cases hfo : fin = o
      · subst hfo
        rw [if_pos rfl] at hne ⊢
        refine ⟨rfl, ?_, (chainB_iff G.adjB (fin :: p)).1 hchain⟩
        cases hwc : p with
        | nil =>
          have hfd : fin = d := hnil hwc
          simp [hfd]
        | cons a t =>
          rw [List.getLast?_cons_cons]
          have hg := hlast (by rw [hwc]; simp)
          rw [hwc] at hg
          exact hg
      · rw [if_neg hfo] at hhead
        cases hwc : p with
        | nil =>
          rw [hwc] at hhead
          simp at hhead
        | cons a t =>
          rw [hwc] at hhead
          simp only [List.head?_cons, Option.some.injEq] at hhead
          exact absurd hhead (hxo a (by rw [hwc]; exact List.mem_cons_self a t))
  · intro hne
    rcases find_shortest_path_shape G o d metric with ⟨hemp, _⟩ |
      ⟨path, hguard, hsp, heq⟩
    · rw [hemp] at hne
      simp [emptyRoute] at hne
    · rw [heq]
      have hspec := shortestPath_spec G o d metric path hsp
      have hw := (walkCandidates_sound G o d path hspec.1).1
      exact ⟨hw.1, hw.2.1, (chainB_iff G.adjB path).1 hw.2.2⟩

unseal Rat.add Rat.mul Rat.inv Rat.sub Rat.ofScientific in
/-- C5 witness: both searches on the one-edge graph return the path
`[1, 2]`, whose endpoints and single hop are checked concretely. -/
theorem route_endpoints_and_adjacency_witness :
    ((find_balanced_route exG1 gc0 1 2 0.5 0.3 0.2 ∅).1.head? = some 1 ∧
      (find_balanced_route exG1 gc0 1 2 0.5 0.3 0.2 ∅).1.getLast? = some 2 ∧
      List.Chain' (fun u v => exG1.adjB u v = true)
        (find_balanced_route exG1 gc0 1 2 0.5 0.3 0.2 ∅).1) ∧
    ((find_shortest_path_by_metric exG1 1 2 .distance).1.head? = some 1 ∧
      (find_shortest_path_by_metric exG1 1 2 .distance).1.getLast? = some 2 ∧
      List.Chain' (fun u v => exG1.adjB u v = true)
        (find_shortest_path_by_metric exG1 1 2 .distance).1) :=
  ⟨(route_endpoints_and_adjacency exG1 gc0 1 2 0.5 0.3 0.2 ∅ .distance).1
      (by decide),
    (route_endpoints_and_adjacency exG1 gc0 1 2 0.5 0.3 0.2 ∅ .distance).2
      (by decide)⟩

/-! ### C6 -/

theorem sumAttr_hopPicks (G : Graph) (metric : Metric) (hops : List (ℕ × ℕ))
    (huniq : (G.adj.map Entry.eid).Nodup)
    (hnodup : ((hopPicks G metric hops).map Prod.fst).Nodup)
    (f : EdgeData → ℚ) :
    sumAttr G (((hopPicks G metric hops).map Prod.fst).toFinset) f =
      ((hopPicks G metric hops).map (fun pk => f pk.2)).sum := by
  unfold sumAttr
  rw [List.sum_toFinset _ hnodup, List.map_map]
  refine congrArg List.sum (List.map_congr_left ?_)
  intro pk hpk
  obtain ⟨hop, hh, hbe, hid⟩ := hopPicks_mem_spec G metric hops pk hpk
  have hmem := (bestEdge_some_spec G metric hop.1 hop.2 pk.1.2.2 pk.2 hbe).1
  have hlk := lookupEdge_of_mem_parallel G huniq hop.1 hop.2 pk.1.2.2 pk.2 hmem
  simp only [Function.comp_apply]
  rw [hid, hlk]
  rfl

/-- C6: for every non-empty Route of either search, the stored aggregates
equal the recomputation from the returned edge set: `total_time`,
`total_distance` and `total_traffic_score` are exactly the sums of
`travel_time`, `distance` and `traffic_weight_score` over the edges of the
Route's edge set, looked up in the graph.  (The hypothesis that edge
identifiers are unique in the adjacency list is automatic for a networkx
multigraph, whose keys are dictionary keys.) -/
theorem aggregates_match_edge_set (G : Graph) (gc : ℕ → ℕ → ℚ) (o d : ℕ)
    (tw trw dw : ℚ) (used : Finset EdgeId) (metric : Metric)
    (huniq : (G.adj.map Entry.eid).Nodup) :
    ((find_balanced_route G gc o d tw trw dw used).1 ≠ [] →
      (find_balanced_route G gc o d tw trw dw used).2.1 =
          sumAttr G (find_balanced_route G gc o d tw trw dw used).2.2.2.2
            EdgeData.travel_time ∧
        (find_balanced_route G gc o d tw trw dw used).2.2.1 =
          sumAttr G (find_balanced_route G gc o d tw trw dw used).2.2.2.2
            EdgeData.distance ∧
        (find_balanced_route G gc o d tw trw dw used).2.2.2.1 =
          sumAttr G (find_balanced_route G gc o d tw trw dw used).2.2.2.2
            EdgeData.traffic_weight_score) ∧
    ((find_shortest_path_by_metric G o d metric).1 ≠ [] →
      (find_shortest_path_by_metric G o d metric).2.1 =
          sumAttr G (find_shortest_path_by_metric G o d metric).2.2.2.2
            EdgeData.travel_time ∧
        (find_shortest_path_by_metric G o d metric).2.2.1 =
          sumAttr G (find_shortest_path_by_metric G o d metric).2.2.2.2
            EdgeData.distance ∧
        (find_shortest_path_by_metric G o d metric).2.2.2.1 =
          sumAttr G (find_shortest_path_by_metric G o d metric).2.2.2.2
            EdgeData.traffic_weight_score) := by
  constructor
  · intro hne
    rcases find_balanced_route_shape G gc o d tw trw dw used with hemp |
      ⟨st, p, esL, fin, hguard, hal, hrec, hhead, hlook, heq⟩
    · rw [hemp] at hne
      simp [emptyRoute] at hne
    · rw [heq]
      exact ⟨rfl, rfl, rfl⟩
  · intro hne
    rcases find_shortest_path_shape G o d metric with ⟨hemp, _⟩ |
      ⟨path, hguard, hsp, heq⟩
    · rw [hemp] at hne
      simp [emptyRoute] at hne
    · rw [heq]
      have hspec := shortestPath_spec G o d metric path hsp
      obtain ⟨hwalk, hnd⟩ := walkCandidates_sound G o d path hspec.1
      have hsome := walk_hops_isSome G o d path metric hwalk
      have hidsnd := hopPicks_ids_nodup G metric path hnd hsome
      rw [exactAccum_spec G metric (path.zip path.tail)]
      exact ⟨(sumAttr_hopPicks G metric _ huniq hidsnd _).symm,
        (sumAttr_hopPicks G metric _ huniq hidsnd _).symm,
        (sumAttr_hopPicks G metric _ huniq hidsnd _).symm⟩

unseal Rat.add Rat.mul Rat.inv Rat.sub Rat.ofScientific in
/-- C6 witness: the aggregates of both searches on the one-edge graph match
the recomputation from their edge sets. -/
theorem aggregates_match_edge_set_witness :
    ((find_balanced_route exG1 gc0 1 2 0.5 0.3 0.2 ∅).2.1 =
        sumAttr exG1 (find_balanced_route exG1 gc0 1 2 0.5 0.3 0.2 ∅).2.2.2.2
          EdgeData.travel_time ∧
      (find_balanced_route exG1 gc0 1 2 0.5 0.3 0.2 ∅).2.2.1 =
        sumAttr exG1 (find_balanced_route exG1 gc0 1 2 0.5 0.3 0.2 ∅).2.2.2.2
          EdgeData.distance ∧
      (find_balanced_route exG1 gc0 1 2 0.5 0.3 0.2 ∅).2.2.2.1 =
        sumAttr exG1 (find_balanced_route exG1 gc0 1 2 0.5 0.3 0.2 ∅).2.2.2.2
          EdgeData.traffic_weight_score) ∧
    ((find_shortest_path_by_metric exG1 1 2 .distance).2.1 =
        sumAttr exG1 (find_shortest_path_by_metric exG1 1 2 .distance).2.2.2.2
          EdgeData.travel_time ∧
      (find_shortest_path_by_metric exG1 1 2 .distance).2.2.1 =
        sumAttr exG1 (find_shortest_path_by_metric exG1 1 2 .distance).2.2.2.2
          EdgeData.distance ∧
      (find_shortest_path_by_metric exG1 1 2 .distance).2.2.2.1 =
        sumAttr exG1 (find_shortest_path_by_metric exG1 1 2 .distance).2.2.2.2
          EdgeData.traffic_weight_score) :=
  ⟨(aggregates_match_edge_set exG1 gc0 1 2 0.5 0.3 0.2 ∅ .distance
      (by decide)).1 (by decide),
    (aggregates_match_edge_set exG1 gc0 1 2 0.5 0.3 0.2 ∅ .distance
      (by decide)).2 (by decide)⟩

/-! ### C9 -/

/-- C9: in the Exact Single-Metric Solver, for every consecutive node pair of
the returned path there is a reconstructed parallel edge whose metric value
is minimal among all parallel edges of that pair, its identifier is the one
recorded in the Route's edge set, and the three aggregates are exactly the
sums of the reconstructed edges' attributes. -/
theorem exact_reconstruction_min_parallel (G : Graph) (o d : ℕ)
    (metric : Metric)
    (hne : (find_shortest_path_by_metric G o d metric).1 ≠ []) :
    (∀ hop ∈ (find_shortest_path_by_metric G o d metric).1.zip
        (find_shortest_path_by_metric G o d metric).1.tail,
      ∃ k data,
        bestEdge G metric hop.1 hop.2 = some (k, data) ∧
        (k, data) ∈ G.parallel hop.1 hop.2 ∧
        (∀ q ∈ G.parallel hop.1 hop.2,
          metricVal data metric ≤ metricVal q.2 metric) ∧
        (hop.1, hop.2, k) ∈ (find_shortest_path_by_metric G o d metric).2.2.2.2)
    ∧ (find_shortest_path_by_metric G o d metric).2.2.2.2 =
        ((hopPicks G metric ((find_shortest_path_by_metric G o d metric).1.zip
          (find_shortest_path_by_metric G o d metric).1.tail)).map
            Prod.fst).toFinset
    ∧ (find_shortest_path_by_metric G o d metric).2.1 =
        ((hopPicks G metric ((find_shortest_path_by_metric G o d metric).1.zip
          (find_shortest_path_by_metric G o d metric).1.tail)).map
            (fun pk => pk.2.travel_time)).sum
    ∧ (find_shortest_path_by_metric G o d metric).2.2.1 =
        ((hopPicks G metric ((find_shortest_path_by_metric G o d metric).1.zip
          (find_shortest_path_by_metric G o d metric).1.tail)).map
            (fun pk => pk.2.distance)).sum
    ∧ (find_shortest_path_by_metric G o d metric).2.2.2.1 =
        ((hopPicks G metric ((find_shortest_path_by_metric G o d metric).1.zip
          (find_shortest_path_by_metric G o d metric).1.tail)).map
            (fun pk => pk.2.traffic_weight_score)).sum := by
  rcases find_shortest_path_shape G o d metric with ⟨hemp, _⟩ |
    ⟨path, hguard, hsp, heq⟩
  · rw [hemp] at hne
    simp [emptyRoute] at hne
  · rw [heq]
    have hspec := shortestPath_spec G o d metric path hsp
    obtain ⟨hwalk, hnd⟩ := walkCandidates_sound G o d path hspec.1
    have hsome := walk_hops_isSome G o d path metric hwalk
    rw [exactAccum_spec G metric (path.zip path.tail)]
    refine ⟨?_, rfl, rfl, rfl, rfl⟩
    intro hop hh
    obtain ⟨⟨k, data⟩, hbe⟩ := Option.isSome_iff_exists.1 (hsome hop hh)
    obtain ⟨hmem, hmin, _⟩ := bestEdge_some_spec G metric hop.1 hop.2 k data hbe
    refine ⟨k, data, hbe, hmem, hmin, ?_⟩
    rw [List.mem_toFinset]
    exact List.mem_map.2 ⟨((hop.1, hop.2, k), data),
      mem_hopPicks G metric _ hop k data hh hbe, rfl⟩

unseal Rat.add Rat.mul Rat.inv Rat.sub Rat.ofScientific in
/-- C9 witness: on the two-parallel-edge graph the distance solve picks the
key-1 edge (distance 50 beats 100); the conclusion instantiated there. -/
theorem exact_reconstruction_min_parallel_witness :
    (∀ hop ∈ (find_shortest_path_by_metric exG2 1 2 .distance).1.zip
        (find_shortest_path_by_metric exG2 1 2 .distance).1.tail,
      ∃ k data,
        bestEdge exG2 .distance hop.1 hop.2 = some (k, data) ∧
        (k, data) ∈ exG2.parallel hop.1 hop.2 ∧
        (∀ q ∈ exG2.parallel hop.1 hop.2,
          metricVal data .distance ≤ metricVal q.2 .distance) ∧
        (hop.1, hop.2, k) ∈ (find_shortest_path_by_metric exG2 1 2 .distance).2.2.2.2)
    ∧ (find_shortest_path_by_metric exG2 1 2 .distance).2.2.2.2 =
        ((hopPicks exG2 .distance ((find_shortest_path_by_metric exG2 1 2 .distance).1.zip
          (find_shortest_path_by_metric exG2 1 2 .distance).1.tail)).map
            Prod.fst).toFinset
    ∧ (find_shortest_path_by_metric exG2 1 2 .distance).2.1 =
        ((hopPicks exG2 .distance ((find_shortest_path_by_metric exG2 1 2 .distance).1.zip
          (find_shortest_path_by_metric exG2 1 2 .distance).1.tail)).map
            (fun pk => pk.2.travel_time)).sum
    ∧ (find_shortest_path_by_metric exG2 1 2 .distance).2.2.1 =
        ((hopPicks exG2 .distance ((find_shortest_path_by_metric exG2 1 2 .distance).1.zip
          (find_shortest_path_by_metric exG2 1 2 .distance).1.tail)).map
            (fun pk => pk.2.distance)).sum
    ∧ (find_shortest_path_by_metric exG2 1 2 .distance).2.2.2.1 =
        ((hopPicks exG2 .distance ((find_shortest_path_by_metric exG2 1 2 .distance).1.zip
          (find_shortest_path_by_metric exG2 1 2 .distance).1.tail)).map
            (fun pk => pk.2.traffic_weight_score)).sum :=
  exact_reconstruction_min_parallel exG2 1 2 .distance (by decide)

/-! ### C2 -/

/-- C2: whenever every edge's distance is nonnegative and some edge-level
path joins origin and destination, the Distance solve of the Exact
Single-Metric Solver returns a non-empty Route whose total raw distance is
less than or equal to the total distance of every other path between the
same origin and destination. -/
theorem exact_distance_globally_minimal (G : Graph) (o d : ℕ)
    (ho : o ∈ G.nodeList) (hd : d ∈ G.nodeList)
    (h0 : ∀ e ∈ G.adj, 0 ≤ e.data.distance)
    (hconn : ∃ w0, IsEdgeWalk G o d w0) :
    (find_shortest_path_by_metric G o d .distance).1 ≠ [] ∧
      ∀ w, IsEdgeWalk G o d w →
        (find_shortest_path_by_metric G o d .distance).2.2.1 ≤
          (w.map (fun e => e.data.distance)).sum := by
  have h0m : ∀ e ∈ G.adj, 0 ≤ metricVal e.data .distance := h0
  obtain ⟨w0, hw0⟩ := hconn
  obtain ⟨hnw0, _⟩ := edgeWalk_nodeWalk G .distance w0 o d hw0
  obtain ⟨q0, hq0walk, hq0nd, _⟩ :=
    nodeWalk_shorten G .distance o d h0m _ _ (le_refl _) hnw0
  have hq0cand := walkCandidates_complete G o d q0 hq0walk hq0nd ho
  obtain ⟨path0, hsp0⟩ := shortestPath_of_candidate G o d .distance q0 hq0cand
  rcases find_shortest_path_shape G o d .distance with ⟨hemp, hwhy⟩ |
    ⟨path2, hguard, hsp2, heq⟩
  · rcases hwhy with hg | hnone
    · exact absurd ⟨ho, hd⟩ hg
    · rw [hsp0] at hnone
      cases hnone
  · rw [heq]
    have hspec := shortestPath_spec G o d .distance path2 hsp2
    obtain ⟨hwalk2, hnd2⟩ := walkCandidates_sound G o d path2 hspec.1
    have htot : (exactAccum G .distance (path2.zip path2.tail)).2.2.1 =
        walkCost G .distance path2 := by
      rw [exactAccum_spec]
      rw [walkCost_eq_hops]
      exact hopPicks_metricVal_sum G .distance (path2.zip path2.tail)
        (walk_hops_isSome G o d path2 .distance hwalk2)
    constructor
    · intro hnil
      have hpn : path2 = [] := hnil
      rw [hpn] at hwalk2
      exact absurd hwalk2.1 (by simp)
    · intro w hw
      obtain ⟨hnww, hcostw⟩ := edgeWalk_nodeWalk G .distance w o d hw
      obtain ⟨qw, hqwalk, hqnd, hqcost⟩ :=
        nodeWalk_shorten G .distance o d h0m _ _ (le_refl _) hnww
      have hqcand := walkCandidates_complete G o d qw hqwalk hqnd ho
      have hmin := hspec.2 qw hqcand
      calc (path2, (exactAccum G .distance (path2.zip path2.tail)).2.1,
            (exactAccum G .distance (path2.zip path2.tail)).2.2.1,
            (exactAccum G .distance (path2.zip path2.tail)).2.2.2,
            (exactAccum G .distance (path2.zip path2.tail)).1).2.2.1
          = walkCost G .distance path2 := htot
        _ ≤ walkCost G .distance qw := hmin
        _ ≤ walkCost G .distance (o :: w.map Entry.tgt) := hqcost
        _ ≤ (w.map (fun e => e.data.distance)).sum := hcostw

/-- C2 witness: on the two-parallel-edge graph the distance solve yields
total distance 50, minimal against a concrete competing edge walk. -/
theorem exact_distance_globally_minimal_witness :
    (find_shortest_path_by_metric exG2 1 2 .distance).1 ≠ [] ∧
      ∀ w, IsEdgeWalk exG2 1 2 w →
        (find_shortest_path_by_metric exG2 1 2 .distance).2.2.1 ≤
          (w.map (fun e => e.data.distance)).sum :=
  exact_distance_globally_minimal exG2 1 2 (by decide) (by decide) (by decide)
    ⟨[(1, 2, 0, EdgeData.mk 100 10 1)], by decide⟩

/-! ### C8 -/

/-- C8: admissibility of the heuristic.  `gc` abstracts the great-circle
distance computed by `utils.haversine`; the hypotheses `hgc0`, `hgcd`,
`hgctri` are the metric-space facts satisfied by the real haversine
(nonnegativity, vanishing at equal points, triangle inequality).  Under the
claim's preconditions — every edge's travel time at least its distance at
120 km/h (`distance / (120 / 3.6)` seconds), every edge at least as long as
the great-circle distance between its endpoints, every traffic score at
least 1, and nonnegative weights — the heuristic estimate at a node never
exceeds the true remaining weighted cost (the penalty-free traversal cost)
of any edge path from that node to the destination. -/
theorem heuristic_admissible (G : Graph) (gc : ℕ → ℕ → ℚ) (tw trw dw : ℚ)
    (d : ℕ) (htw : 0 ≤ tw) (htrw : 0 ≤ trw) (hdw : 0 ≤ dw)
    (hgc0 : ∀ a b, 0 ≤ gc a b) (hgcd : ∀ a, gc a a = 0)
    (hgctri : ∀ a b c, gc a c ≤ gc a b + gc b c)
    (htime : ∀ e ∈ G.adj,
      e.data.distance / ((120 : ℚ) / 3.6) ≤ e.data.travel_time)
    (hdist : ∀ e ∈ G.adj, gc e.src e.tgt ≤ e.data.distance)
    (htws : ∀ e ∈ G.adj, 1 ≤ e.data.traffic_weight_score) :
    ∀ (n : ℕ) (w : List Entry), IsEdgeWalk G n d w →
      heuristic gc tw trw dw d n ≤
        (w.map (fun e => tw * e.data.travel_time
          + trw * (e.data.traffic_weight_score * e.data.distance / 1000)
          + dw * (e.data.distance / 1000))).sum := by
  intro n w
  induction w generalizing n with
  | nil =>
    intro h
    have hnd : n = d := h
    subst hnd
    simp [heuristic, hgcd n]
  | cons e rest ih =>
    intro h
    obtain ⟨hmem, hsrc, hrest⟩ := h
    have hIH := ih e.tgt hrest
    rw [List.map_cons, List.sum_cons]
    have hkey : heuristic gc tw trw dw d n ≤
        (tw * e.data.travel_time
          + trw * (e.data.traffic_weight_score * e.data.distance / 1000)
          + dw * (e.data.distance / 1000))
          + heuristic gc tw trw dw d e.tgt := by
      have htri := hgctri n e.tgt d
      have hd1 := hdist e hmem
      rw [hsrc] at hd1
      have ht1 := htime e hmem
      have hs1 := htws e hmem
      have hD0 : 0 ≤ e.data.distance := le_trans (hgc0 n e.tgt) hd1
      have hSD : e.data.distance ≤
          e.data.traffic_weight_score * e.data.distance := by
        nlinarith
      have hg2 : 0 ≤ gc e.tgt d := hgc0 e.tgt d
      have h36 : ((120 : ℚ) / 3.6) = 100 / 3 := by norm_num
      simp only [heuristic, h36]
      have hgle : gc n d ≤ e.data.distance + gc e.tgt d := by linarith
      have hA : tw * (gc n d / ((100 : ℚ) / 3)) ≤ tw * e.data.travel_time
          + tw * (gc e.tgt d / ((100 : ℚ) / 3)) := by
        have h1 : gc n d / ((100 : ℚ) / 3) ≤
            e.data.travel_time + gc e.tgt d / ((100 : ℚ) / 3) := by
          rw [h36] at ht1
          have h2 : gc n d / ((100 : ℚ) / 3) ≤
              e.data.distance / ((100 : ℚ) / 3)
                + gc e.tgt d / ((100 : ℚ) / 3) := by
            rw [div_add_div_same, div_le_div_iff_of_pos_right (by norm_num)]
            exact hgle
          linarith
        nlinarith
      have hB : dw * (gc n d / 1000) ≤ dw * (e.data.distance / 1000)
          + dw * (gc e.tgt d / 1000) := by
        have h2 : gc n d / 1000 ≤ e.data.distance / 1000
            + gc e.tgt d / 1000 := by
          rw [div_add_div_same, div_le_div_iff_of_pos_right (by norm_num)]
          exact hgle
        nlinarith
      have hC : trw * (gc n d / 1000 * 1) ≤
          trw * (e.data.traffic_weight_score * e.data.distance / 1000)
            + trw * (gc e.tgt d / 1000 * 1) := by
        have h2 : gc n d / 1000 ≤
            e.data.traffic_weight_score * e.data.distance / 1000
              + gc e.tgt d / 1000 := by
          have h3 : gc n d ≤ e.data.traffic_weight_score * e.data.distance
              + gc e.tgt d := by linarith
          rw [div_add_div_same, div_le_div_iff_of_pos_right (by norm_num)]
          exact h3
        nlinarith
      linarith
    calc heuristic gc tw trw dw d n
        ≤ (tw * e.data.travel_time
            + trw * (e.data.traffic_weight_score * e.data.distance / 1000)
            + dw * (e.data.distance / 1000))
            + heuristic gc tw trw dw d e.tgt := hkey
      _ ≤ (tw * e.data.travel_time
            + trw * (e.data.traffic_weight_score * e.data.distance / 1000)
            + dw * (e.data.distance / 1000))
            + (rest.map (fun e => tw * e.data.travel_time
              + trw * (e.data.traffic_weight_score * e.data.distance / 1000)
              + dw * (e.data.distance / 1000))).sum := by linarith

unseal Rat.add Rat.mul Rat.inv Rat.sub Rat.ofScientific in
/-- C8 witness: the zero great-circle abstraction satisfies the metric
hypotheses, the one-edge graph satisfies the per-edge preconditions, and the
estimate at node 1 is dominated by the cost of the concrete one-edge path. -/
theorem heuristic_admissible_witness :
    heuristic gc0 0.5 0.3 0.2 2 1 ≤
      (([(1, 2, 0, EdgeData.mk 5 5 1)] : List Entry).map
        (fun e => (0.5 : ℚ) * e.data.travel_time
          + 0.3 * (e.data.traffic_weight_score * e.data.distance / 1000)
          + 0.2 * (e.data.distance / 1000))).sum :=
  heuristic_admissible exG1 gc0 0.5 0.3 0.2 2 (by decide) (by decide)
    (by decide) (fun a b => le_refl 0) (fun a => rfl)
    (fun a b c => by simp [gc0]) (by decide) (by decide) (by decide)
    1 [(1, 2, 0, EdgeData.mk 5 5 1)] (by decide)

/-! ### C10 -/

/-- C10: `find_balanced_route` terminates.  With nonnegative weights and
edge attributes, the best-first main loop reaches an empty frontier or the
destination pop within the fuel `loopFuel` actually used (each node is
expanded at most once; each expansion requires a strict `g`-cost decrease to
push), and the predecessor map stays acyclic, so the reconstruction walk
reaches the origin or a predecessor-less node within its fuel
`preds.length + 1`: neither fuel-exhaustion branch of the model is ever
taken. -/
theorem find_balanced_route_terminates (G : Graph) (gc : ℕ → ℕ → ℚ)
    (o d : ℕ) (tw trw dw : ℚ) (used : Finset EdgeId)
    (ho : o ∈ G.nodeList) (htw : 0 ≤ tw) (htrw : 0 ≤ trw) (hdw : 0 ≤ dw)
    (hattr : ∀ e ∈ G.adj, 0 ≤ e.data.travel_time ∧ 0 ≤ e.data.distance
      ∧ 0 ≤ e.data.traffic_weight_score) :
    ∃ st, aLoop G gc tw trw dw used d (loopFuel G)
        (AState.mk [(o, 0)] [] [(heuristic gc tw trw dw d o, o)] []) = some st
      ∧ (reconAux st.preds o (st.preds.length + 1) d [] []).isSome := by
  have hV : ∀ fn ∈ (AState.mk [(o, 0)] [] [(heuristic gc tw trw dw d o, o)]
      ([] : List ℕ)).openL, fn.2 ∈ G.universe := by
    intro fn hfn
    have : fn = (heuristic gc tw trw dw d o, o) := by simpa using hfn
    rw [this]
    exact mem_universe_of_node G o ho
  have hmeas : (AState.mk [(o, 0)] [] [(heuristic gc tw trw dw d o, o)]
      ([] : List ℕ)).openL.length
        + (G.universe.toFinset
          \ (AState.mk [(o, 0)] [] [(heuristic gc tw trw dw d o, o)]
            ([] : List ℕ)).visited.toFinset).card * (G.adj.length + 1)
      < loopFuel G := by
    have hc1 : (G.universe.toFinset
        \ (([] : List ℕ)).toFinset).card ≤ G.universe.length := by
      rw [show (([] : List ℕ)).toFinset = (∅ : Finset ℕ) from rfl,
        Finset.sdiff_empty]
      exact G.universe.toFinset_card_le
    have hc2 : (G.universe.toFinset
        \ (([] : List ℕ)).toFinset).card * (G.adj.length + 1) ≤
        G.universe.length * (G.adj.length + 1) :=
      Nat.mul_le_mul_right _ hc1
    unfold loopFuel
    dsimp only
    simp only [List.length_cons, List.length_nil]
    omega
  have hsome := aLoop_isSome G gc tw trw dw used d (loopFuel G)
    (AState.mk [(o, 0)] [] [(heuristic gc tw trw dw d o, o)] []) hV hmeas
  obtain ⟨st, hst⟩ := Option.isSome_iff_exists.1 hsome
  refine ⟨st, hst, ?_⟩
  have hg0 : GMono (AState.mk [(o, 0)] [] [(heuristic gc tw trw dw d o, o)]
      ([] : List ℕ)).gList (AState.mk [(o, 0)] []
        [(heuristic gc tw trw dw d o, o)] ([] : List ℕ)).preds := by
    intro a b k h
    simp [alookup] at h
  obtain ⟨_, hacyc⟩ := aLoop_inv G gc tw trw dw used d htw htrw hdw hattr
    (loopFuel G) (AState.mk [(o, 0)] [] [(heuristic gc tw trw dw d o, o)] [])
    hg0 acyclic_nil st hst
  exact reconAux_total st.preds o hacyc d [] []

unseal Rat.add Rat.mul Rat.inv Rat.sub Rat.ofScientific in
/-- C10 witness: the loop and the reconstruction walk of the Balanced search
on the one-edge graph both finish within their fuel. -/
theorem find_balanced_route_terminates_witness :
    ∃ st, aLoop exG1 gc0 0.5 0.3 0.2 ∅ 2 (loopFuel exG1)
        (AState.mk [(1, 0)] [] [(heuristic gc0 0.5 0.3 0.2 2 1, 1)] []) = some st
      ∧ (reconAux st.preds 1 (st.preds.length + 1) 2 [] []).isSome :=
  find_balanced_route_terminates exG1 gc0 1 2 0.5 0.3 0.2 ∅ (by decide)
    (by decide) (by decide) (by decide) (by decide)

end RouteOpt
